import Mathlib

/-!
Verification of the Quiz-App extraction engine (src/quiz_app_mvp_ins/app.py).

Strings are modelled as `List Char` (Python unicode code points).  Each
definition in the `QuizApp` namespace is a shallow embedding of the Python
function of the same (or closest legal) name.
-/

set_option maxRecDepth 4000

namespace QuizApp

/-- Python `str.isspace` / regex `\s` whitespace set (Unicode). -/
def pyIsSpace (c : Char) : Bool :=
  let n := c.toNat
  n == 0x20 || (decide (0x9 ≤ n) && decide (n ≤ 0xd)) ||
  (decide (0x1c ≤ n) && decide (n ≤ 0x1f)) || n == 0x85 || n == 0xa0 ||
  n == 0x1680 || (decide (0x2000 ≤ n) && decide (n ≤ 0x200a)) ||
  n == 0x2028 || n == 0x2029 || n == 0x202f || n == 0x205f || n == 0x3000

/-- The character class `[  ]` of `normalize_spaces`' third rule. -/
def isSpNb (c : Char) : Bool := c == ' ' || c == ' '

/-- The character class `[\t\f\v]` of `normalize_spaces`' second rule. -/
def isTabFfVt (c : Char) : Bool := c == '\t' || c == '\x0c' || c == '\x0b'

/-- ASCII decimal digit (regex `\d` as used on this corpus). -/
def isDigit (c : Char) : Bool := decide ('0' ≤ c) && decide (c ≤ '9')

/-- Numeric value of a digit string, as Python `int`. -/
def digitsToNat (l : List Char) : Nat :=
  l.foldl (fun a c => a * 10 + (c.toNat - '0'.toNat)) 0

/-- Python `str.rstrip()` on one line. -/
def rstripFn (l : List Char) : List Char :=
  (l.reverse.dropWhile pyIsSpace).reverse

/-- Python `str.lstrip()`. -/
def lstripFn (l : List Char) : List Char := l.dropWhile pyIsSpace

/-- Python `str.strip()`. -/
def stripFn (l : List Char) : List Char := rstripFn (lstripFn l)

/-- `str.split("\n")`, first line paired with the remaining lines. -/
def splitLinesNE : List Char → List Char × List (List Char)
  | [] => ([], [])
  | c :: rest =>
    let p := splitLinesNE rest
    if c = '\n' then ([], p.1 :: p.2) else (c :: p.1, p.2)

/-- `str.split("\n")` (always non-empty). -/
def splitLines (l : List Char) : List (List Char) :=
  (splitLinesNE l).1 :: (splitLinesNE l).2

/-- `"\n".join(...)`. -/
def joinNL : List (List Char) → List Char
  | [] => []
  | [l] => l
  | l :: ls => l ++ '\n' :: joinNL ls

/-- Rule 1 of `normalize_spaces`: `re.sub(r"\r\n?", "\n", s)`. -/
def nzCr : List Char → List Char
  | [] => []
  | [c] => if c = '\r' then ['\n'] else [c]
  | c :: d :: rest =>
    if c = '\r' then
      if d = '\n' then '\n' :: nzCr rest else '\n' :: nzCr (d :: rest)
    else c :: nzCr (d :: rest)

/-- Rule 2: `re.sub(r"[\t\f\v]", " ", s)`. -/
def nzTab (l : List Char) : List Char :=
  l.map fun c => if isTabFfVt c then ' ' else c

/-- Rule 3: `re.sub(r"[  ]+", " ", s)`. -/
def nzSp : List Char → List Char
  | [] => []
  | [c] => if isSpNb c then [' '] else [c]
  | c :: d :: rest =>
    if isSpNb c then
      if isSpNb d then nzSp (d :: rest) else ' ' :: nzSp (d :: rest)
    else c :: nzSp (d :: rest)

/-- Helper for rule 4, carrying the current count of pending newlines. -/
def nzNlGo : Nat → List Char → List Char
  | n, [] => List.replicate (min n 2) '\n'
  | n, c :: rest =>
    if c = '\n' then nzNlGo (n + 1) rest
    else List.replicate (min n 2) '\n' ++ c :: nzNlGo 0 rest

/-- Rule 4: `re.sub(r"\n{3,}", "\n\n", s)`. -/
def nzNl (l : List Char) : List Char := nzNlGo 0 l

/-- Rule 5: `"\n".join(line.rstrip() for line in s.split("\n")).strip()`. -/
def nzJoin (l : List Char) : List Char :=
  stripFn (joinNL ((splitLines l).map rstripFn))

/-- `normalize_spaces` from app.py. -/
def normalize_spaces (s : List Char) : List Char :=
  nzJoin (nzNl (nzSp (nzTab (nzCr s))))

/-- Whether the text contains a run of three (or more) consecutive newlines,
i.e. a place where the regex `\n{3,}` of rule 4 would fire. -/
def hasTripleNL : List Char → Bool
  | c1 :: c2 :: c3 :: r =>
    (c1 = '\n' && c2 = '\n' && c3 = '\n') || hasTripleNL (c2 :: c3 :: r)
  | _ => false

/-- Adjacent pair acceptable for rule 3's fixed points: not two space-class
characters in a row. -/
def okPair (a b : Char) : Prop := ¬(isSpNb a = true ∧ isSpNb b = true)

/-- No two adjacent space-class characters anywhere in the list. -/
def noAdjSp : List Char → Prop
  | [] => True
  | [_] => True
  | a :: b :: r => okPair a b ∧ noAdjSp (b :: r)

/-- Literal-prefix test (regex alternatives are matched literally in order). -/
def startsWith : List Char → List Char → Bool
  | [], _ => true
  | _ :: _, [] => false
  | p :: ps, c :: cs => p == c && startsWith ps cs

/-- `ANS_MARK = ^(正确答案|参考答案|答案)\s*[:：]?` — since everything after the
alternation is optional, a line matches iff one alternative is a prefix. -/
def ansMark (l : List Char) : Bool :=
  startsWith "正确答案".data l || startsWith "参考答案".data l ||
  startsWith "答案".data l

/-- `ANA_MARK = ^(解析|答案解析)\s*[:：]?`. -/
def anaMark (l : List Char) : Bool :=
  startsWith "解析".data l || startsWith "答案解析".data l

/-- Option key class `[A-H]`. -/
def isOptKey (c : Char) : Bool := decide ('A' ≤ c) && decide (c ≤ 'H')

/-- Option separator class `[、\.)]`. -/
def isOptSep (c : Char) : Bool := c == '、' || c == '.' || c == ')'

/-- `OPT_SINGLE = ^([A-H])[、\.)]$`. -/
def optSingle : List Char → Option Char
  | [k, s] => if isOptKey k && isOptSep s then some k else none
  | _ => none

/-- `OPT_INLINE = ^([A-H])[、\.)]\s*(.+)$` on a newline-free line; the greedy
`\s*` backs off one character if the remainder would be empty. -/
def optInline : List Char → Option (Char × List Char)
  | k :: s :: rest =>
    if isOptKey k && isOptSep s then
      if rest.isEmpty then none
      else if (lstripFn rest).isEmpty then some (k, [rest.getLastD ' '])
      else some (k, lstripFn rest)
    else none
  | _ => none

/-- `re.split(r"[:：]", l, maxsplit=1)`: `none` when no colon occurs. -/
def isColon (c : Char) : Bool := c == ':' || c == '：'

def splitColon : List Char → Option (List Char × List Char)
  | [] => none
  | c :: rest =>
    if isColon c then some ([], rest)
    else
      match splitColon rest with
      | none => none
      | some (a, b) => some (c :: a, b)

/-- The answer found on the first non-blank line after an answer marker. -/
def nextLineAnswer (rest : List (List Char)) : List Char × List (List Char) :=
  match rest.dropWhile (fun m => (stripFn m).isEmpty) with
  | [] => ([], [])
  | a :: rest2 => (stripFn a, rest2)

/-- `parse_answer_from_lines`, returning the answer and the still-unscanned
suffix of the line list. -/
def parse_answer_from_lines : List (List Char) → List Char × List (List Char)
  | [] => ([], [])
  | l :: rest =>
    if ansMark l then
      match splitColon l with
      | some p =>
        if (stripFn p.2).isEmpty then nextLineAnswer rest
        else (stripFn p.2, rest)
      | none => nextLineAnswer rest
    else parse_answer_from_lines rest

/-- `" ".join(...)`. -/
def joinSpace : List (List Char) → List Char
  | [] => []
  | [l] => l
  | l :: ls => l ++ ' ' :: joinSpace ls

/-- `parse_analysis_from_lines`. -/
def parse_analysis_from_lines : List (List Char) → List Char
  | [] => []
  | l :: rest =>
    if anaMark l then
      match splitColon l with
      | some p =>
        if (stripFn p.2).isEmpty then stripFn (joinSpace rest)
        else stripFn p.2
      | none => stripFn (joinSpace rest)
    else parse_analysis_from_lines rest

/-- `re.sub(r"\s+", " ", l)`. -/
def collapseWs : List Char → List Char
  | [] => []
  | [c] => if pyIsSpace c then [' '] else [c]
  | c :: d :: rest =>
    if pyIsSpace c then
      if pyIsSpace d then collapseWs (d :: rest)
      else ' ' :: collapseWs (d :: rest)
    else c :: collapseWs (d :: rest)

/-- The per-block line model: whitespace-collapsed, stripped, blanks dropped. -/
def cleanLines (block : List Char) : List (List Char) :=
  ((splitLines block).map fun l => stripFn (collapseWs l)).filter
    fun l => !l.isEmpty

/-- Sorted-insert without duplicates, building Python's `sorted(set(...))`. -/
def insLetter (c : Char) : List Char → List Char
  | [] => [c]
  | d :: r =>
    if c < d then c :: d :: r
    else if c = d then d :: r
    else d :: insLetter c r

/-- ASCII uppercase (`str.upper` restricted to this corpus). -/
def asciiUpper (c : Char) : Char :=
  if decide ('a' ≤ c) && decide (c ≤ 'z') then Char.ofNat (c.toNat - 32) else c

def isAH (c : Char) : Bool := decide ('A' ≤ c) && decide (c ≤ 'H')

/-- `norm_letters`: uppercase, keep `A–H`, deduplicate, sort. -/
def norm_letters (s : List Char) : List Char :=
  ((s.map asciiUpper).filter isAH).foldr insLetter []

/-- `infer_qtype` decision chain. -/
def infer_qtype (sect : List Char) (options : List (Char × List Char))
    (answer : List Char) : List Char :=
  if sect = "判断题".data then "judge".data
  else if !options.isEmpty then
    let letters := norm_letters answer
    if 2 ≤ letters.length then "multi".data
    else if letters.length = 1 then "single".data
    else "choice".data
  else if sect = "填空题".data then "fill".data
  else if sect = "简答题".data then "short".data
  else if sect = "阅读理解".data then "text".data
  else "text".data

/-- One parsed question (dict produced by the block parsers). -/
structure QuestionRecord where
  source : List Char
  number_in_source : Nat
  sect : List Char
  qtype : List Char
  stem : List Char
  options : List (Char × List Char)
  answer : List Char
  analysis : List Char
  score : Option ℚ
  deriving DecidableEq

/-- `（\s*(\d+(?:\.\d+)?)\s*）` anchored here: score value and match length. -/
def scoreClose (rest : List Char) : Option Nat :=
  match rest.dropWhile pyIsSpace with
  | '）' :: _ => some ((rest.takeWhile pyIsSpace).length + 1)
  | _ => none

def scoreValue (ds fs : List Char) : ℚ :=
  (digitsToNat ds : ℚ) + (digitsToNat fs : ℚ) / ((10 : ℚ) ^ fs.length)

def matchScore : List Char → Option (ℚ × Nat)
  | '（' :: r =>
    let w1 := (r.takeWhile pyIsSpace).length
    let r1 := r.dropWhile pyIsSpace
    let ds := r1.takeWhile isDigit
    if ds.isEmpty then none
    else
      match r1.drop ds.length with
      | '.' :: r3 =>
        let fs := r3.takeWhile isDigit
        if fs.isEmpty then
          match scoreClose ('.' :: r3) with
          | some k => some (scoreValue ds [], 1 + w1 + ds.length + k)
          | none => none
        else
          match scoreClose (r3.drop fs.length) with
          | some k =>
            some (scoreValue ds fs, 1 + w1 + ds.length + 1 + fs.length + k)
          | none => none
      | r2 =>
        match scoreClose r2 with
        | some k => some (scoreValue ds [], 1 + w1 + ds.length + k)
        | none => none
  | _ => none

/-- `re.search` for the score pattern: leftmost match. -/
def findScore : List Char → Option ℚ
  | [] => none
  | c :: r =>
    match matchScore (c :: r) with
    | some p => some p.1
    | none => findScore r

/-- `re.sub` removing every score annotation (fuel-driven scan). -/
def removeScores : Nat → List Char → List Char
  | 0, l => l
  | _ + 1, [] => []
  | fuel + 1, c :: r =>
    match matchScore (c :: r) with
    | some p => removeScores fuel (r.drop (p.2 - 1))
    | none => c :: removeScores fuel r

/-- Decimal rendering of `number_in_source`, as interpolated into the
leading-number regex. -/
def numToken (n : Nat) : List Char := Nat.toDigits 10 n

/-- `^\s*{num}[、\.]\s*` anchored at this position (whitespace may span
newlines); returns the consumed length. -/
def matchLeadNum (n : Nat) (l : List Char) : Option Nat :=
  let w1 := l.takeWhile pyIsSpace
  let r1 := l.dropWhile pyIsSpace
  if startsWith (numToken n) r1 then
    match r1.drop (numToken n).length with
    | s :: r3 =>
      if s == '、' || s == '.' then
        some (w1.length + (numToken n).length + 1 +
          (r3.takeWhile pyIsSpace).length)
      else none
    | [] => none
  else none

/-- `re.sub(rf"^\s*{num}[、\.]\s*", "", line)` (single-line anchor). -/
def stripLeadNum (n : Nat) (l : List Char) : List Char :=
  match matchLeadNum n l with
  | some len => l.drop len
  | none => l

/-- Option scanning loop of `parse_block_common` (step 4). -/
def scanOptions : List (List Char) → List (Char × List Char) × List (List Char)
  | [] => ([], [])
  | l :: rest =>
    if ansMark l then ([], l :: rest)
    else
      match optSingle l with
      | some k =>
        match rest with
        | [] => ([], [])
        | l2 :: rest2 =>
          if ansMark l2 then ([], rest)
          else
            let p := scanOptions rest2
            ((k, l2) :: p.1, p.2)
      | none =>
        match optInline l with
        | some kt =>
          let p := scanOptions rest
          ((kt.1, kt.2) :: p.1, p.2)
        | none => scanOptions rest

/-- A clean-line is a stem stopper when it is an answer marker or an option. -/
def stemStop (l : List Char) : Bool :=
  ansMark l || (optSingle l).isSome || (optInline l).isSome

/-- `parse_block_common`. -/
def parse_block_common (block : List Char) (n : Nat) (sect : List Char)
    (src : List Char) : List QuestionRecord :=
  match cleanLines block with
  | [] => []
  | first0 :: restLines =>
    let first1 := stripFn (stripLeadNum n first0)
    let score := findScore first1
    let first2 :=
      match score with
      | some _ => stripFn (removeScores first1.length first1)
      | none => first1
    let stemRest := restLines.takeWhile fun l => !stemStop l
    let afterStem := restLines.dropWhile fun l => !stemStop l
    let op := scanOptions afterStem
    let pa := parse_answer_from_lines op.2
    let analysis := parse_analysis_from_lines pa.2
    let stem := stripFn (joinSpace (first2 :: stemRest))
    [{ source := src, number_in_source := n, sect := sect,
       qtype := infer_qtype sect op.1 pa.1, stem := stem, options := op.1,
       answer := stripFn pa.1, analysis := stripFn analysis, score := score }]

/-- `SUBQ_START = (?m)^\s*[（\(](\d{1,2})[）\)]\s*[、\.)]` anchored at a line
start: captured digits and consumed length. -/
def matchSubq (l : List Char) : Option (List Char × Nat) :=
  let w1 := (l.takeWhile pyIsSpace).length
  match l.dropWhile pyIsSpace with
  | p :: r1 =>
    if p == '（' || p == '(' then
      let ds := r1.takeWhile isDigit
      if ds.length = 1 || ds.length = 2 then
        match r1.drop ds.length with
        | q :: r2 =>
          if q == '）' || q == ')' then
            let w2 := (r2.takeWhile pyIsSpace).length
            match r2.dropWhile pyIsSpace with
            | s :: _ =>
              if s == '、' || s == '.' || s == ')' then
                some (ds, w1 + 1 + ds.length + 1 + w2 + 1)
              else none
            | [] => none
          else none
        | [] => none
      else none
    else none
  | [] => none

/-- `finditer` for `SUBQ_START`: positions and captured digit groups. -/
def subqScan : Nat → Bool → Nat → List Char → List (Nat × List Char)
  | 0, _, _, _ => []
  | fuel + 1, atLS, pos, l =>
    match l with
    | [] => []
    | c :: r =>
      if atLS then
        match matchSubq l with
        | some dl => (pos, dl.1) :: subqScan fuel false (pos + dl.2) (l.drop dl.2)
        | none => subqScan fuel (c == '\n') (pos + 1) r
      else subqScan fuel (c == '\n') (pos + 1) r

def SUBQ_findall (l : List Char) : List (Nat × List Char) :=
  subqScan (l.length + 1) true 0 l

/-- `QSTART = (?m)^\s*(\d+)(?:、|\.(?!\d))\s*` anchored at a line start:
captured digits, consumed match text, remainder. -/
def matchQStart (l : List Char) : Option (List Char × List Char × List Char) :=
  let w1 := l.takeWhile pyIsSpace
  let r1 := l.dropWhile pyIsSpace
  let ds := r1.takeWhile isDigit
  if ds.isEmpty then none
  else
    match r1.drop ds.length with
    | s :: r2 =>
      if s == '、' then
        some (ds, w1 ++ ds ++ s :: r2.takeWhile pyIsSpace, r2.dropWhile pyIsSpace)
      else
        if s == '.' then
          match r2 with
          | d :: _ =>
            if isDigit d then none
            else
              some (ds, w1 ++ ds ++ s :: r2.takeWhile pyIsSpace,
                r2.dropWhile pyIsSpace)
          | [] => some (ds, w1 ++ ds ++ [s], [])
        else none
    | [] => none

/-- `finditer` for `QSTART`. -/
def qstartScan : Nat → Bool → Nat → List Char → List (Nat × List Char)
  | 0, _, _, _ => []
  | _ + 1, _, _, [] => []
  | fuel + 1, atLS, pos, c :: r =>
    if atLS then
      match matchQStart (c :: r) with
      | some m =>
        (pos, m.1) :: qstartScan fuel (m.2.1.getLast? == some '\n')
          (pos + m.2.1.length) m.2.2
      | none => qstartScan fuel (c == '\n') (pos + 1) r
    else qstartScan fuel (c == '\n') (pos + 1) r

def QSTART_findall (l : List Char) : List (Nat × List Char) :=
  qstartScan (l.length + 1) true 0 l

/-- Chinese/Arabic ordinal characters of the section-heading enumerator. -/
def cnOrd (c : Char) : Bool :=
  c == '一' || c == '二' || c == '三' || c == '四' || c == '五' || c == '六' ||
  c == '七' || c == '八' || c == '九' || c == '十' || isDigit c

/-- Ordered alternation of literal section names. -/
def matchSectionName (names : List (List Char)) (l : List Char) : Option Nat :=
  match names with
  | [] => none
  | n :: ns => if startsWith n l then some n.length else matchSectionName ns l

/-- Index of the last `'\n'` inside a whitespace run. -/
def lastNlIdx (w : List Char) : Option Nat :=
  match w.reverse.findIdx? (fun c => c == '\n') with
  | some j => some (w.length - 1 - j)
  | none => none

/-- The trailing `\s*$` of a heading pattern: greedy whitespace with the
multiline `$` anchor (end of text, or just before a `'\n'`). Returns the
consumed length and whether the last consumed char is `'\n'`. -/
def sectionTail (r : List Char) : Option (Nat × Bool) :=
  let w := r.takeWhile pyIsSpace
  if (r.drop w.length).isEmpty then
    some (w.length,
      match w.getLast? with
      | some c => c == '\n'
      | none => false)
  else
    match lastNlIdx w with
    | some i =>
      some (i,
        match (w.take i).getLast? with
        | some c => c == '\n'
        | none => false)
    | none => none

/-- One heading pattern `^\s*(?:[一..十\d]+[、\.]\s*)?NAME\s*$` anchored at a
line start: consumed length and last-consumed-is-newline flag. -/
def matchSection (names : List (List Char)) (l : List Char) :
    Option (Nat × Bool) :=
  let w1 := l.takeWhile pyIsSpace
  let r1 := l.dropWhile pyIsSpace
  let e := r1.takeWhile cnOrd
  let enumRes : Option (Nat × Bool) :=
    if e.isEmpty then none
    else
      match r1.drop e.length with
      | s :: r2 =>
        if s == '、' || s == '.' then
          let w2 := r2.takeWhile pyIsSpace
          let r3 := r2.dropWhile pyIsSpace
          match matchSectionName names r3 with
          | some nl =>
            match sectionTail (r3.drop nl) with
            | some tb =>
              some (w1.length + e.length + 1 + w2.length + nl + tb.1,
                if tb.1 = 0 then false else tb.2)
            | none => none
          | none => none
        else none
      | [] => none
  match enumRes with
  | some x => some x
  | none =>
    match matchSectionName names r1 with
    | some nl =>
      match sectionTail (r1.drop nl) with
      | some tb =>
        some (w1.length + nl + tb.1, if tb.1 = 0 then false else tb.2)
      | none => none
    | none => none

/-- `finditer` for one heading pattern: match start positions. -/
def sectionScan (names : List (List Char)) :
    Nat → Bool → Nat → List Char → List Nat
  | 0, _, _, _ => []
  | fuel + 1, atLS, pos, l =>
    match l with
    | [] => []
    | c :: r =>
      if atLS then
        match matchSection names l with
        | some lb =>
          pos :: sectionScan names fuel lb.2 (pos + lb.1) (l.drop lb.1)
        | none => sectionScan names fuel (c == '\n') (pos + 1) r
      else sectionScan names fuel (c == '\n') (pos + 1) r

def SECTION_PATTERNS : List (List (List Char) × List Char) :=
  [(["单项选择题".data, "单选题".data], "单选题".data),
   (["多项选择题".data, "多选题".data], "多选题".data),
   (["判断题".data], "判断题".data),
   (["填空题".data], "填空题".data),
   (["阅读理解".data], "阅读理解".data),
   (["简答题".data], "简答题".data)]

/-- `build_section_markers`: all pattern matches, sorted by position. -/
def build_section_markers (text : List Char) : List (Nat × List Char) :=
  (List.map (fun pn =>
      (sectionScan pn.1 (text.length + 1) true 0 text).map fun p => (p, pn.2))
    SECTION_PATTERNS).flatten.mergeSort fun a b => Nat.ble a.1 b.1

/-- `section_at` scanning loop. -/
def sectionAtGo : List Char → List (Nat × List Char) → Nat → List Char
  | cur, [], _ => cur
  | cur, m :: rest, pos =>
    if m.1 ≤ pos then sectionAtGo m.2 rest pos else cur

def section_at (markers : List (Nat × List Char)) (pos : Nat) : List Char :=
  sectionAtGo "未知".data markers pos

/-- `(?m)^\s*{num}[、\.]\s*` removal, leftmost match only (`count=1`). -/
def stripLeadNumML : Nat → Bool → Nat → List Char → List Char
  | 0, _, _, l => l
  | _ + 1, _, _, [] => []
  | fuel + 1, atLS, n, c :: r =>
    if atLS then
      match matchLeadNum n (c :: r) with
      | some len => (c :: r).drop len
      | none => c :: stripLeadNumML fuel (c == '\n') n r
    else c :: stripLeadNumML fuel (c == '\n') n r

/-- `re.sub(r"^\s*[（\(]\d+[）\)]\s*", "", sub_text)` (string-start anchor). -/
def stripLeadSubq (l : List Char) : List Char :=
  match l.dropWhile pyIsSpace with
  | p :: r1 =>
    if p == '（' || p == '(' then
      let ds := r1.takeWhile isDigit
      if ds.isEmpty then l
      else
        match r1.drop ds.length with
        | q :: r2 =>
          if q == '）' || q == ')' then r2.dropWhile pyIsSpace else l
        | [] => l
    else l
  | [] => l

/-- Sub-question spans `[start, next start or end)` with captured ordinals. -/
def buildSpans : List (Nat × List Char) → Nat → List (Nat × Nat × List Char)
  | [], _ => []
  | [sd], len => [(sd.1, len, sd.2)]
  | sd :: sd2 :: rest, len => (sd.1, sd2.1, sd.2) :: buildSpans (sd2 :: rest) len

/-- One fanned-out reading-comprehension record. -/
def mkReadingRecord (bwn passage : List Char) (n : Nat) (src : List Char)
    (sp : Nat × Nat × List Char) : QuestionRecord :=
  let subText0 := stripFn ((bwn.drop sp.1).take (sp.2.1 - sp.1))
  let subText := stripFn (stripLeadSubq subText0)
  let lines := cleanLines subText
  let pa := parse_answer_from_lines lines
  let analysis := parse_analysis_from_lines pa.2
  let stem := stripFn (joinSpace (lines.takeWhile fun l => !ansMark l))
  let fullStem :=
    if !passage.isEmpty then
      stripFn ("【阅读材料】".data ++ passage ++ "\n\n(".data ++ sp.2.2 ++
        ") ".data ++ stem)
    else stripFn ("(".data ++ sp.2.2 ++ ") ".data ++ stem)
  { source := src, number_in_source := n, sect := "阅读理解".data,
    qtype := "text".data, stem := fullStem, options := [],
    answer := stripFn pa.1, analysis := stripFn analysis, score := none }

/-- The block with its leading `{num}、` marker removed once (`block_wo_num`). -/
def blockWoNum (block : List Char) (n : Nat) : List Char :=
  stripFn (stripLeadNumML (block.length + 1) true n block)

/-- The shared passage: text before the first sub-question marker. -/
def passageOf (block : List Char) (n : Nat) : List Char :=
  match SUBQ_findall (blockWoNum block n) with
  | [] => []
  | s0 :: _ => stripFn ((blockWoNum block n).take s0.1)

/-- `split_reading_block`. -/
def split_reading_block (block : List Char) (n : Nat) (src : List Char) :
    List QuestionRecord :=
  let bwn := blockWoNum block n
  match SUBQ_findall bwn with
  | [] => parse_block_common block n "阅读理解".data src
  | s0 :: srest =>
    let passage := stripFn (bwn.take s0.1)
    (buildSpans (s0 :: srest) bwn.length).map (mkReadingRecord bwn passage n src)

/-- Raw blocks `(start, end, numberInSource)` from the match list. -/
def buildBlocks : List (Nat × List Char) → Nat → List (Nat × Nat × Nat)
  | [], _ => []
  | [sd], len => [(sd.1, len, digitsToNat sd.2)]
  | sd :: sd2 :: rest, len =>
    (sd.1, sd2.1, digitsToNat sd.2) :: buildBlocks (sd2 :: rest) len

/-- `parse_questions`. -/
def parse_questions (plain : List Char) (src : List Char) : List QuestionRecord :=
  let text := normalize_spaces plain
  let markers := build_section_markers text
  let blocks := buildBlocks (QSTART_findall text) text.length
  (blocks.map fun b =>
    let sect := section_at markers b.1
    let blk := stripFn ((text.drop b.1).take (b.2.1 - b.1))
    if sect = "阅读理解".data then split_reading_block blk b.2.2 src
    else parse_block_common blk b.2.2 sect src).flatten

def hexDigit (n : Nat) : Char :=
  if n < 10 then Char.ofNat ('0'.toNat + n) else Char.ofNat ('a'.toNat + n - 10)

def hexByte (n : Nat) : List Char := [hexDigit (n / 16), hexDigit (n % 16)]

/-- JSON string-character escaping as `json.dumps(..., ensure_ascii=False)`. -/
def jsonEscapeChar (c : Char) : List Char :=
  if c = '"' then ['\\', '"']
  else if c = '\\' then ['\\', '\\']
  else if c = '\n' then ['\\', 'n']
  else if c = '\r' then ['\\', 'r']
  else if c = '\t' then ['\\', 't']
  else if c = '\x08' then ['\\', 'b']
  else if c = '\x0c' then ['\\', 'f']
  else if c.toNat < 0x20 then '\\' :: 'u' :: '0' :: '0' :: hexByte c.toNat
  else [c]

def jsonStr (s : List Char) : List Char :=
  '"' :: (s.map jsonEscapeChar).flatten ++ ['"']

def jsonOpt (o : Char × List Char) : List Char :=
  "\x7b\"key\": ".data ++ jsonStr [o.1] ++ ", \"text\": ".data ++ jsonStr o.2 ++
  "\x7d".data

def jsonOptsRest : List (Char × List Char) → List Char
  | [] => "]".data
  | o :: os => ", ".data ++ jsonOpt o ++ jsonOptsRest os

def jsonOpts : List (Char × List Char) → List Char
  | [] => "[]".data
  | o :: os => "[".data ++ jsonOpt o ++ jsonOptsRest os

/-- `json.dumps({"stem":…,"options":…,"answer":…,"section":…}, ensure_ascii=False,
sort_keys=True)`: keys serialized in sorted order answer, options, section, stem. -/
def canonicalBase (q : QuestionRecord) : List Char :=
  "\x7b\"answer\": ".data ++ jsonStr q.answer ++ ", \"options\": ".data ++
  jsonOpts q.options ++ ", \"section\": ".data ++ jsonStr q.sect ++
  ", \"stem\": ".data ++ jsonStr q.stem ++ "\x7d".data

/-- UTF-8 encoding of one scalar value. -/
def utf8Char (c : Char) : List Nat :=
  let n := c.toNat
  if n < 0x80 then [n]
  else if n < 0x800 then [0xC0 + n / 0x40, 0x80 + n % 0x40]
  else if n < 0x10000 then
    [0xE0 + n / 0x1000, 0x80 + n / 0x40 % 0x40, 0x80 + n % 0x40]
  else
    [0xF0 + n / 0x40000, 0x80 + n / 0x1000 % 0x40, 0x80 + n / 0x40 % 0x40,
     0x80 + n % 0x40]

def utf8 (s : List Char) : List Nat := (s.map utf8Char).flatten

def rotl (k x : Nat) : Nat := (x * 2 ^ k + x / 2 ^ (32 - k)) % 2 ^ 32

def lenBytes (n : Nat) : List Nat :=
  [n / 2 ^ 56 % 256, n / 2 ^ 48 % 256, n / 2 ^ 40 % 256, n / 2 ^ 32 % 256,
   n / 2 ^ 24 % 256, n / 2 ^ 16 % 256, n / 2 ^ 8 % 256, n % 256]

def sha1pad (msg : List Nat) : List Nat :=
  msg ++ 0x80 :: List.replicate ((55 + 64 - msg.length % 64) % 64) 0 ++
    lenBytes (msg.length * 8)

def chunks64 : Nat → List Nat → List (List Nat)
  | 0, _ => []
  | _, [] => []
  | fuel + 1, l => l.take 64 :: chunks64 fuel (l.drop 64)

def toWords : List Nat → List Nat
  | b0 :: b1 :: b2 :: b3 :: rest =>
    (b0 * 0x1000000 + b1 * 0x10000 + b2 * 0x100 + b3) :: toWords rest
  | _ => []

def sha1ExtendStep (ws : List Nat) : List Nat :=
  let i := ws.length
  ws ++ [rotl 1 (Nat.xor (Nat.xor (ws.getD (i - 3) 0) (ws.getD (i - 8) 0))
    (Nat.xor (ws.getD (i - 14) 0) (ws.getD (i - 16) 0)))]

def sha1W (ws : List Nat) : List Nat :=
  (List.range 64).foldl (fun acc _ => sha1ExtendStep acc) ws

def sha1K (i : Nat) : Nat :=
  if i < 20 then 0x5A827999
  else if i < 40 then 0x6ED9EBA1
  else if i < 60 then 0x8F1BBCDC
  else 0xCA62C1D6

def sha1F (i b c d : Nat) : Nat :=
  if i < 20 then Nat.lor (Nat.land b c) (Nat.land (0xFFFFFFFF - b) d)
  else if i < 40 then Nat.xor (Nat.xor b c) d
  else if i < 60 then Nat.lor (Nat.lor (Nat.land b c) (Nat.land b d)) (Nat.land c d)
  else Nat.xor (Nat.xor b c) d

structure Sha1State where
  a : Nat
  b : Nat
  c : Nat
  d : Nat
  e : Nat

def sha1Round (st : Sha1State) (iw : Nat × Nat) : Sha1State :=
  let tmp := (rotl 5 st.a + sha1F iw.1 st.b st.c st.d + st.e + sha1K iw.1 + iw.2) % 2 ^ 32
  ⟨tmp, st.a, rotl 30 st.b, st.c, st.d⟩

def sha1Chunk (h : Sha1State) (chunk : List Nat) : Sha1State :=
  let st := (((List.range 80).zip (sha1W (toWords chunk))).foldl sha1Round h)
  ⟨(h.a + st.a) % 2 ^ 32, (h.b + st.b) % 2 ^ 32, (h.c + st.c) % 2 ^ 32,
   (h.d + st.d) % 2 ^ 32, (h.e + st.e) % 2 ^ 32⟩

def wordBytes (n : Nat) : List Nat :=
  [n / 2 ^ 24 % 256, n / 2 ^ 16 % 256, n / 2 ^ 8 % 256, n % 256]

def sha1Bytes (msg : List Nat) : List Nat :=
  let padded := sha1pad msg
  let h := (chunks64 (padded.length + 1) padded).foldl sha1Chunk
    ⟨0x67452301, 0xEFCDAB89, 0x98BADCFE, 0x10325476, 0xC3D2E1F0⟩
  wordBytes h.a ++ wordBytes h.b ++ wordBytes h.c ++ wordBytes h.d ++ wordBytes h.e

/-- `sha1_text`: hex digest of the UTF-8 encoding. -/
def sha1_text (s : List Char) : List Char :=
  ((sha1Bytes (utf8 s)).map hexByte).flatten

/-- The fingerprint `qhash` computed by `upsert_questions`. -/
def qhashOf (q : QuestionRecord) : List Char := sha1_text (canonicalBase q)

/-- Substring occurrence test. -/
def containsSeq (pat : List Char) : List Char → Bool
  | [] => startsWith pat []
  | c :: r => startsWith pat (c :: r) || containsSeq pat r

/-- The claim's reading of a section heading line: after optional whitespace
and an optional ordinal enumerator, the entire line is one of the fixed
section names followed only by whitespace. -/
def lineIsSection (names : List (List Char)) (l : List Char) : Prop :=
  ∃ w1 enum nm w3, l = w1 ++ enum ++ nm ++ w3
    ∧ (∀ c ∈ w1, pyIsSpace c = true) ∧ (∀ c ∈ w3, pyIsSpace c = true)
    ∧ nm ∈ names
    ∧ (enum = [] ∨ ∃ eb s w2, enum = eb ++ s :: w2 ∧ eb ≠ []
        ∧ (∀ c ∈ eb, cnOrd c = true) ∧ (s = '、' ∨ s = '.')
        ∧ (∀ c ∈ w2, pyIsSpace c = true))

/-- Concrete guard text for the version-number claim. -/
def c4Text : List Char :=
  normalize_spaces "说明文档\n参见 1.2.1 节说明\n1、正题内容\n答案：A".data

/-- A stem line containing an in-stem bracketed tag; not a section heading. -/
def c5TagText : List Char :=
  normalize_spaces "1、请完成下列[简答题]内容\n答案：无".data

/-- A document with a genuine ordinal-prefixed section heading. -/
def c5HeadText : List Char :=
  normalize_spaces "二、判断题\n1、地球是圆的\n答案：对".data

theorem noAdjSp_nil : noAdjSp [] := trivial

theorem noAdjSp_single (c : Char) : noAdjSp [c] := trivial

theorem noAdjSp_cons_elim {c : Char} {l : List Char} (h : noAdjSp (c :: l)) :
    noAdjSp l := by
  cases l with
  | nil => trivial
  | cons d r => exact h.2

theorem noAdjSp_cons_pair {c d : Char} {l : List Char}
    (h : noAdjSp (c :: d :: l)) : okPair c d := h.1

theorem noAdjSp_cons_intro {c : Char} {l : List Char} (h : noAdjSp l)
    (hp : ∀ y, l.head? = some y → okPair c y) : noAdjSp (c :: l) := by
  cases l with
  | nil => trivial
  | cons d r => exact ⟨hp d rfl, h⟩

theorem noAdjSp_head_pair {c : Char} {l : List Char} (h : noAdjSp (c :: l)) :
    ∀ y, l.head? = some y → okPair c y := by
  intro y hy
  cases l with
  | nil => simp at hy
  | cons d r => cases hy; exact h.1

/-- Two-step induction on lists, with the inductive hypothesis available both
for the tail and for the tail of the tail, matching the recursion pattern of
the character-rewriting rules. -/
theorem listRec2 {α : Type} {motive : List α → Prop} (h0 : motive [])
    (h1 : ∀ c, motive [c])
    (h2 : ∀ c d rest, motive rest → motive (d :: rest) → motive (c :: d :: rest)) :
    ∀ l, motive l := by
  have key : ∀ n (l : List α), l.length ≤ n → motive l := by
    intro n
    induction n with
    | zero =>
      intro l hl
      cases l with
      | nil => exact h0
      | cons c r => simp at hl
    | succ n ih =>
      intro l hl
      match l with
      | [] => exact h0
      | [c] => exact h1 c
      | c :: d :: rest =>
        refine h2 c d rest (ih rest ?_) (ih (d :: rest) ?_) <;>
          simp at hl ⊢ <;> omega
  intro l
  exact key l.length l (Nat.le_refl _)

/-- No `'\r'` survives rule 1. -/
theorem nzCr_no_cr (l : List Char) : '\r' ∉ nzCr l := by
  induction l using listRec2 with
  | h0 => simp [nzCr]
  | h1 c =>
    by_cases h : c = '\r'
    · simp [nzCr, h]
    · simp [nzCr, h]
      exact Ne.symm h
  | h2 c d rest ih1 ih2 =>
    by_cases h : c = '\r'
    · by_cases h2 : d = '\n'
      · simpa [nzCr, h, h2] using ih1
      · simpa [nzCr, h, h2] using ih2
    · simp [nzCr, h]
      exact ⟨Ne.symm h, ih2⟩

theorem mem_nzCr {c : Char} {l : List Char} (h : c ∈ nzCr l) :
    c = '\n' ∨ c ∈ l := by
  induction l using listRec2 with
  | h0 => simp [nzCr] at h
  | h1 d =>
    by_cases hd : d = '\r'
    · simp [nzCr, hd] at h
      exact Or.inl h
    · simp [nzCr, hd] at h
      exact Or.inr (by simp [h])
  | h2 d e rest ih1 ih2 =>
    by_cases hd : d = '\r'
    · by_cases he : e = '\n'
      · simp [nzCr, hd, he] at h
        rcases h with h | h
        · exact Or.inl h
        · rcases ih1 h with h' | h'
          · exact Or.inl h'
          · exact Or.inr (List.mem_cons_of_mem _ (List.mem_cons_of_mem _ h'))
      · simp [nzCr, hd, he] at h
        rcases h with h | h
        · exact Or.inl h
        · rcases ih2 h with h' | h'
          · exact Or.inl h'
          · exact Or.inr (List.mem_cons_of_mem _ h')
    · simp [nzCr, hd] at h
      rcases h with h | h
      · exact Or.inr (by simp [h])
      · rcases ih2 h with h' | h'
        · exact Or.inl h'
        · exact Or.inr (List.mem_cons_of_mem _ h')

/-- Rule 1 is the identity on `'\r'`-free text. -/
theorem nzCr_fix {l : List Char} (h : '\r' ∉ l) : nzCr l = l := by
  induction l using listRec2 with
  | h0 => rfl
  | h1 c =>
    have hc : ¬c = '\r' := fun hc => h (by simp [hc])
    simp [nzCr, hc]
  | h2 c d rest ih1 ih2 =>
    have hc : ¬c = '\r' := fun hc => h (by simp [hc])
    have hr : '\r' ∉ d :: rest := fun hm => h (List.mem_cons_of_mem _ hm)
    rw [show nzCr (c :: d :: rest) = c :: nzCr (d :: rest) by simp [nzCr, hc]]
    rw [ih2 hr]

theorem mem_nzTab {c : Char} {l : List Char} (h : c ∈ nzTab l) :
    c = ' ' ∨ c ∈ l := by
  rcases List.mem_map.1 h with ⟨d, hd, he⟩
  by_cases ht : isTabFfVt d = true <;> simp [ht] at he
  · exact Or.inl he.symm
  · exact Or.inr (he ▸ hd)

theorem nzTab_no_tab {c : Char} (hc : isTabFfVt c = true) (l : List Char) :
    c ∉ nzTab l := by
  intro h
  rcases List.mem_map.1 h with ⟨d, _, he⟩
  by_cases ht : isTabFfVt d = true <;> simp [ht] at he
  · rw [← he] at hc
    simp [isTabFfVt] at hc
  · rw [he] at ht
    exact ht hc

/-- Rule 2 is the identity on tab/ff/vt-free text. -/
theorem nzTab_fix {l : List Char} (h : ∀ c ∈ l, isTabFfVt c = false) :
    nzTab l = l := by
  induction l with
  | nil => rfl
  | cons c r ih =>
    have hc := h c (List.mem_cons_self _ _)
    have ihr := ih fun d hd => h d (List.mem_cons_of_mem _ hd)
    simp only [nzTab, List.map_cons] at ihr ⊢
    rw [ihr, hc]
    simp

theorem mem_nzSp {c : Char} {l : List Char} (h : c ∈ nzSp l) :
    c = ' ' ∨ c ∈ l := by
  induction l using listRec2 with
  | h0 => simp [nzSp] at h
  | h1 d =>
    by_cases hd : isSpNb d = true
    · simp [nzSp, hd] at h
      exact Or.inl h
    · simp [nzSp, hd] at h
      exact Or.inr (by simp [h])
  | h2 d e rest ih1 ih2 =>
    by_cases hd : isSpNb d = true
    · by_cases he : isSpNb e = true
      · rw [show nzSp (d :: e :: rest) = nzSp (e :: rest) by simp [nzSp, hd, he]] at h
        rcases ih2 h with h' | h'
        · exact Or.inl h'
        · exact Or.inr (List.mem_cons_of_mem _ h')
      · rw [show nzSp (d :: e :: rest) = ' ' :: nzSp (e :: rest) by simp [nzSp, hd, he]] at h
        rcases List.mem_cons.1 h with h | h
        · exact Or.inl (by simpa using h)
        · rcases ih2 h with h' | h'
          · exact Or.inl h'
          · exact Or.inr (List.mem_cons_of_mem _ h')
    · rw [show nzSp (d :: e :: rest) = d :: nzSp (e :: rest) by simp [nzSp, hd]] at h
      rcases List.mem_cons.1 h with h | h
      · exact Or.inr (by simp [show c = d from by simpa using h])
      · rcases ih2 h with h' | h'
        · exact Or.inl h'
        · exact Or.inr (List.mem_cons_of_mem _ h')

theorem nzSp_no_nbsp (l : List Char) : ' ' ∉ nzSp l := by
  induction l using listRec2 with
  | h0 => simp [nzSp]
  | h1 d =>
    by_cases hd : isSpNb d = true
    · simp [nzSp, hd]
    · simp [nzSp, hd]
      intro h
      rw [← h] at hd
      simp [isSpNb] at hd
  | h2 d e rest ih1 ih2 =>
    by_cases hd : isSpNb d = true
    · by_cases he : isSpNb e = true
      · rw [show nzSp (d :: e :: rest) = nzSp (e :: rest) by simp [nzSp, hd, he]]
        exact ih2
      · rw [show nzSp (d :: e :: rest) = ' ' :: nzSp (e :: rest) by simp [nzSp, hd, he]]
        simp only [List.mem_cons]
        push_neg
        exact ⟨by decide, ih2⟩
    · rw [show nzSp (d :: e :: rest) = d :: nzSp (e :: rest) by simp [nzSp, hd]]
      simp only [List.mem_cons]
      push_neg
      refine ⟨?_, ih2⟩
      intro h
      rw [← h] at hd
      simp [isSpNb] at hd

/-- Rule 3 is the identity when there is no NBSP and no adjacent space pair. -/
theorem nzSp_fix {l : List Char} (hn : ' ' ∉ l) (ha : noAdjSp l) :
    nzSp l = l := by
  induction l using listRec2 with
  | h0 => rfl
  | h1 d =>
    by_cases hd : isSpNb d = true
    · have hd' : d = ' ' := by
        rcases (show d = ' ' ∨ d = ' ' by simpa [isSpNb] using hd) with h | h
        · exact h
        · exact absurd (by simp [h]) hn
      simp [nzSp, hd, hd']
    · simp [nzSp, hd]
  | h2 d e rest ih1 ih2 =>
    have hn2 : ' ' ∉ e :: rest := fun hm => hn (List.mem_cons_of_mem _ hm)
    have ha2 : noAdjSp (e :: rest) := noAdjSp_cons_elim ha
    by_cases hd : isSpNb d = true
    · have hpair := noAdjSp_cons_pair ha
      have he : ¬isSpNb e = true := fun hhe => hpair ⟨hd, hhe⟩
      have hd' : d = ' ' := by
        rcases (show d = ' ' ∨ d = ' ' by simpa [isSpNb] using hd) with h | h
        · exact h
        · exact absurd (by simp [h]) hn
      rw [show nzSp (d :: e :: rest) = ' ' :: nzSp (e :: rest) by simp [nzSp, hd, he]]
      rw [ih2 hn2 ha2, hd']
    · rw [show nzSp (d :: e :: rest) = d :: nzSp (e :: rest) by simp [nzSp, hd]]
      rw [ih2 hn2 ha2]

theorem hasTripleNL_cons_false {c : Char} {l : List Char}
    (h : hasTripleNL (c :: l) = false) : hasTripleNL l = false := by
  match l with
  | [] => rfl
  | [d] => rfl
  | d :: e :: r =>
    simp only [hasTripleNL, Bool.or_eq_false_iff] at h
    exact h.2

theorem hasTripleNL_suffix {a l : List Char}
    (h : hasTripleNL (a ++ l) = false) : hasTripleNL l = false := by
  induction a with
  | nil => exact h
  | cons c a ih => exact ih (hasTripleNL_cons_false h)

theorem hasTriple_of_triple (r : List Char) :
    hasTripleNL ('\n' :: '\n' :: '\n' :: r) = true := by
  simp [hasTripleNL]

/-- Rule 4's accumulator loop is the identity as long as no newline triple
occurs. -/
theorem nzNlGo_fix : ∀ (l : List Char) (n : Nat), n ≤ 2 →
    hasTripleNL (List.replicate n '\n' ++ l) = false →
    nzNlGo n l = List.replicate n '\n' ++ l := by
  intro l
  induction l with
  | nil =>
    intro n hn _
    simp [nzNlGo, Nat.min_eq_left hn]
  | cons c r ih =>
    intro n hn ht
    by_cases hc : c = '\n'
    · subst hc
      have hn1 : n + 1 ≤ 2 := by
        rcases Nat.lt_or_ge n 2 with h | h
        · omega
        · exfalso
          have hn2 : n = 2 := by omega
          subst hn2
          rw [show (List.replicate 2 '\n' ++ '\n' :: r) = '\n' :: '\n' :: '\n' :: r from rfl,
            hasTriple_of_triple] at ht
          exact Bool.noConfusion ht
      have heq : List.replicate (n + 1) '\n' ++ r = List.replicate n '\n' ++ '\n' :: r := by
        rw [List.replicate_succ']
        simp
      rw [show nzNlGo n ('\n' :: r) = nzNlGo (n + 1) r by simp [nzNlGo]]
      rw [ih (n + 1) hn1 (by rw [heq]; exact ht), heq]
    · have ht0 : hasTripleNL r = false :=
        hasTripleNL_cons_false (hasTripleNL_suffix ht)
      rw [show nzNlGo n (c :: r) =
          List.replicate (min n 2) '\n' ++ c :: nzNlGo 0 r by simp [nzNlGo, hc]]
      rw [show nzNlGo 0 r = r by simpa using ih 0 (by omega) (by simpa using ht0)]
      rw [Nat.min_eq_left hn]

/-- Rule 4 is the identity on triple-newline-free text. -/
theorem nzNl_fix {l : List Char} (h : hasTripleNL l = false) : nzNl l = l := by
  simpa [nzNl] using nzNlGo_fix l 0 (by omega) (by simpa using h)

theorem mem_nzNlGo {c : Char} : ∀ (l : List Char) (n : Nat),
    c ∈ nzNlGo n l → c = '\n' ∨ c ∈ l := by
  intro l
  induction l with
  | nil =>
    intro n h
    simp only [nzNlGo] at h
    exact Or.inl (List.eq_of_mem_replicate h)
  | cons d r ih =>
    intro n h
    by_cases hd : d = '\n'
    · subst hd
      rw [show nzNlGo n ('\n' :: r) = nzNlGo (n + 1) r by simp [nzNlGo]] at h
      rcases ih (n + 1) h with h' | h'
      · exact Or.inl h'
      · exact Or.inr (List.mem_cons_of_mem _ h')
    · rw [show nzNlGo n (d :: r) =
          List.replicate (min n 2) '\n' ++ d :: nzNlGo 0 r by simp [nzNlGo, hd]] at h
      rcases List.mem_append.1 h with h' | h'
      · exact Or.inl (List.eq_of_mem_replicate h')
      · rcases List.mem_cons.1 h' with h'' | h''
        · exact Or.inr (by simp [h''])
        · rcases ih 0 h'' with h3 | h3
          · exact Or.inl h3
          · exact Or.inr (List.mem_cons_of_mem _ h3)

theorem nzNlGo_head_pos : ∀ (l : List Char) (n : Nat), 1 ≤ n →
    (nzNlGo n l).head? = some '\n' := by
  intro l
  induction l with
  | nil =>
    intro n hn
    have hk : min n 2 = (min n 2 - 1) + 1 := by omega
    rw [show nzNlGo n [] = List.replicate (min n 2) '\n' from rfl, hk,
      List.replicate_succ]
    rfl
  | cons d r ih =>
    intro n hn
    by_cases hd : d = '\n'
    · subst hd
      rw [show nzNlGo n ('\n' :: r) = nzNlGo (n + 1) r by simp [nzNlGo]]
      exact ih (n + 1) (by omega)
    · rw [show nzNlGo n (d :: r) =
          List.replicate (min n 2) '\n' ++ d :: nzNlGo 0 r by simp [nzNlGo, hd]]
      have hk : min n 2 = (min n 2 - 1) + 1 := by omega
      rw [hk, List.replicate_succ]
      rfl

theorem nzNlGo_zero_head (l : List Char) : (nzNlGo 0 l).head? = l.head? := by
  cases l with
  | nil => rfl
  | cons d r =>
    by_cases hd : d = '\n'
    · subst hd
      rw [show nzNlGo 0 ('\n' :: r) = nzNlGo 1 r by simp [nzNlGo]]
      rw [nzNlGo_head_pos r 1 (by omega)]
      rfl
    · rw [show nzNlGo 0 (d :: r) =
          List.replicate (min 0 2) '\n' ++ d :: nzNlGo 0 r by simp [nzNlGo, hd]]
      rfl

theorem okPair_left {a b : Char} (ha : isSpNb a = false) : okPair a b :=
  fun hc => by rw [ha] at hc; exact Bool.false_ne_true hc.1

theorem okPair_right {a b : Char} (hb : isSpNb b = false) : okPair a b :=
  fun hc => by rw [hb] at hc; exact Bool.false_ne_true hc.2

theorem noAdjSp_replicate_nl_append : ∀ (k : Nat) (X : List Char),
    noAdjSp X → noAdjSp (List.replicate k '\n' ++ X) := by
  intro k
  induction k with
  | zero => intro X h; simpa using h
  | succ k ih =>
    intro X h
    rw [List.replicate_succ, List.cons_append]
    exact noAdjSp_cons_intro (ih X h) fun y _ => okPair_left (by decide)

theorem noAdjSp_nzNlGo : ∀ (l : List Char) (n : Nat), noAdjSp l →
    noAdjSp (nzNlGo n l) := by
  intro l
  induction l with
  | nil =>
    intro n _
    simpa using noAdjSp_replicate_nl_append (min n 2) [] noAdjSp_nil
  | cons d r ih =>
    intro n h
    by_cases hd : d = '\n'
    · subst hd
      rw [show nzNlGo n ('\n' :: r) = nzNlGo (n + 1) r by simp [nzNlGo]]
      exact ih (n + 1) (noAdjSp_cons_elim h)
    · rw [show nzNlGo n (d :: r) =
          List.replicate (min n 2) '\n' ++ d :: nzNlGo 0 r by simp [nzNlGo, hd]]
      apply noAdjSp_replicate_nl_append
      apply noAdjSp_cons_intro (ih 0 (noAdjSp_cons_elim h))
      intro y hy
      rw [nzNlGo_zero_head] at hy
      exact noAdjSp_head_pair h y hy

theorem nzSp_head? (c : Char) (r : List Char) :
    (nzSp (c :: r)).head? = some (if isSpNb c then ' ' else c) := by
  induction r generalizing c with
  | nil => by_cases hc : isSpNb c = true <;> simp [nzSp, hc]
  | cons e rest ih =>
    by_cases hc : isSpNb c = true
    · by_cases he : isSpNb e = true
      · rw [show nzSp (c :: e :: rest) = nzSp (e :: rest) by simp [nzSp, hc, he]]
        rw [ih e]
        simp [hc, he]
      · rw [show nzSp (c :: e :: rest) = ' ' :: nzSp (e :: rest) by simp [nzSp, hc, he]]
        simp [hc]
    · rw [show nzSp (c :: e :: rest) = c :: nzSp (e :: rest) by simp [nzSp, hc]]
      simp [hc]

/-- Rule 3 leaves no adjacent space-class pairs. -/
theorem noAdjSp_nzSp (l : List Char) : noAdjSp (nzSp l) := by
  induction l using listRec2 with
  | h0 => exact noAdjSp_nil
  | h1 c =>
    by_cases hc : isSpNb c = true
    · rw [show nzSp [c] = [' '] by simp [nzSp, hc]]
      exact noAdjSp_single _
    · rw [show nzSp [c] = [c] by simp [nzSp, hc]]
      exact noAdjSp_single _
  | h2 c d rest ih1 ih2 =>
    by_cases hc : isSpNb c = true
    · by_cases hd : isSpNb d = true
      · rw [show nzSp (c :: d :: rest) = nzSp (d :: rest) by simp [nzSp, hc, hd]]
        exact ih2
      · rw [show nzSp (c :: d :: rest) = ' ' :: nzSp (d :: rest) by simp [nzSp, hc, hd]]
        apply noAdjSp_cons_intro ih2
        intro y hy
        rw [nzSp_head? d rest] at hy
        have : y = d := by simpa [hd] using hy.symm
        subst this
        exact okPair_right (by simpa using hd)
    · rw [show nzSp (c :: d :: rest) = c :: nzSp (d :: rest) by simp [nzSp, hc]]
      apply noAdjSp_cons_intro ih2
      intro y _
      exact okPair_left (by simpa using hc)

theorem lstrip_decomp (l : List Char) :
    ∃ a, l = a ++ lstripFn l ∧ ∀ c ∈ a, pyIsSpace c = true := by
  refine ⟨l.takeWhile pyIsSpace, (List.takeWhile_append_dropWhile pyIsSpace l).symm, ?_⟩
  intro c hc
  exact List.mem_takeWhile_imp hc

theorem rstrip_decomp (l : List Char) :
    ∃ t, l = rstripFn l ++ t ∧ ∀ c ∈ t, pyIsSpace c = true := by
  refine ⟨(l.reverse.takeWhile pyIsSpace).reverse, ?_, ?_⟩
  · conv_lhs => rw [← l.reverse_reverse]
    conv_lhs =>
      rw [← List.takeWhile_append_dropWhile pyIsSpace l.reverse]
    rw [List.reverse_append]
    rfl
  · intro c hc
    exact List.mem_takeWhile_imp (List.mem_reverse.1 hc)

theorem mem_lstrip {c : Char} {l : List Char} (h : c ∈ lstripFn l) : c ∈ l := by
  rcases lstrip_decomp l with ⟨a, hl, _⟩
  rw [hl]
  exact List.mem_append_right _ h

theorem mem_rstrip {c : Char} {l : List Char} (h : c ∈ rstripFn l) : c ∈ l := by
  rcases rstrip_decomp l with ⟨t, hl, _⟩
  rw [hl]
  exact List.mem_append_left _ h

theorem lstrip_head_not_ws (l : List Char) :
    ∀ c, (lstripFn l).head? = some c → pyIsSpace c = false := by
  induction l with
  | nil => intro c h; cases h
  | cons d r ih =>
    intro c h
    by_cases hd : pyIsSpace d = true
    · rw [show lstripFn (d :: r) = lstripFn r by
        simp [lstripFn, List.dropWhile_cons, hd]] at h
      exact ih c h
    · rw [show lstripFn (d :: r) = d :: r by
        simp [lstripFn, List.dropWhile_cons, hd]] at h
      simp only [List.head?_cons, Option.some_inj] at h
      subst h
      simpa using hd

theorem lstrip_fix {l : List Char}
    (h : ∀ c, l.head? = some c → pyIsSpace c = false) : lstripFn l = l := by
  cases l with
  | nil => rfl
  | cons d r => simp [lstripFn, List.dropWhile_cons, h d rfl]

theorem lstrip_idem (l : List Char) : lstripFn (lstripFn l) = lstripFn l :=
  lstrip_fix (lstrip_head_not_ws l)

theorem rstrip_fix_iff (l : List Char) :
    rstripFn l = l ↔ lstripFn l.reverse = l.reverse := by
  unfold rstripFn lstripFn
  constructor
  · intro h
    have := congrArg List.reverse h
    rwa [List.reverse_reverse] at this
  · intro h
    rw [h, List.reverse_reverse]

theorem rstrip_idem (l : List Char) : rstripFn (rstripFn l) = rstripFn l := by
  unfold rstripFn
  rw [List.reverse_reverse]
  rw [show (l.reverse.dropWhile pyIsSpace).dropWhile pyIsSpace
      = l.reverse.dropWhile pyIsSpace from lstrip_idem l.reverse]

theorem rstrip_getLast_not_ws (l : List Char) :
    ∀ c, (rstripFn l).getLast? = some c → pyIsSpace c = false := by
  intro c h
  have h2 : (rstripFn l).reverse.head? = some c := by
    rw [List.head?_reverse]
    exact h
  rw [show (rstripFn l).reverse = l.reverse.dropWhile pyIsSpace by
    simp [rstripFn]] at h2
  exact lstrip_head_not_ws _ c h2

theorem rstrip_fix_of_getLast {l : List Char} {c : Char} (h : l.getLast? = some c)
    (hc : pyIsSpace c = false) : rstripFn l = l := by
  rw [rstrip_fix_iff]
  apply lstrip_fix
  intro d hd
  rw [List.head?_reverse, h] at hd
  simp only [Option.some_inj] at hd
  subst hd
  exact hc

theorem rfix_getLast {l : List Char} (h : rstripFn l = l) (hne : l ≠ []) :
    ∃ c, l.getLast? = some c ∧ pyIsSpace c = false := by
  rcases List.exists_mem_of_ne_nil l hne with ⟨x, _⟩
  cases hc : l.getLast? with
  | none =>
    rw [List.getLast?_eq_none_iff] at hc
    exact absurd hc hne
  | some c =>
    refine ⟨c, rfl, ?_⟩
    apply rstrip_getLast_not_ws l
    rw [h]
    exact hc

theorem lstrip_fix_prefix {b a l : List Char} (hl : l = b ++ a)
    (h : lstripFn l = l) : lstripFn b = b := by
  cases b with
  | nil => rfl
  | cons d r =>
    apply lstrip_fix
    intro c hc
    simp only [List.head?_cons, Option.some_inj] at hc
    by_cases hws : pyIsSpace d = true
    · exfalso
      rw [hl] at h
      rw [show lstripFn (d :: r ++ a) = lstripFn (r ++ a) by
        simp [lstripFn, List.dropWhile_cons, hws]] at h
      have hlen := congrArg List.length h
      rcases lstrip_decomp (r ++ a) with ⟨w, hw, _⟩
      have hw2 := congrArg List.length hw
      simp at hlen hw2
      omega
    · rw [← hc]
      simpa using hws

theorem rstrip_fix_suffix {a b l : List Char} (hl : l = a ++ b)
    (h : rstripFn l = l) : rstripFn b = b := by
  rw [rstrip_fix_iff] at h ⊢
  exact lstrip_fix_prefix (by rw [hl, List.reverse_append]) h

theorem rstrip_head {l : List Char} (h : rstripFn l ≠ []) :
    (rstripFn l).head? = l.head? := by
  rcases rstrip_decomp l with ⟨t, hl, _⟩
  conv_rhs => rw [hl]
  cases hrl : rstripFn l with
  | nil => exact absurd hrl h
  | cons x xs => simp [hrl]

/-- Python `strip` is idempotent. -/
theorem strip_idem (l : List Char) : stripFn (stripFn l) = stripFn l := by
  unfold stripFn
  have h1 : lstripFn (rstripFn (lstripFn l)) = rstripFn (lstripFn l) := by
    apply lstrip_fix
    intro c hc
    by_cases hne : rstripFn (lstripFn l) = []
    · rw [hne] at hc; cases hc
    · rw [rstrip_head hne] at hc
      exact lstrip_head_not_ws l c hc
  rw [h1, rstrip_idem]

theorem SLNE_no_nl (l : List Char) :
    '\n' ∉ (splitLinesNE l).1 ∧ ∀ m ∈ (splitLinesNE l).2, '\n' ∉ m := by
  induction l with
  | nil => exact ⟨by simp [splitLinesNE], by simp [splitLinesNE]⟩
  | cons c r ih =>
    by_cases hc : c = '\n'
    · subst hc
      rw [show splitLinesNE ('\n' :: r)
          = ([], (splitLinesNE r).1 :: (splitLinesNE r).2) by simp [splitLinesNE]]
      refine ⟨by simp, ?_⟩
      intro m hm
      rcases List.mem_cons.1 hm with h | h
      · subst h; exact ih.1
      · exact ih.2 m h
    · rw [show splitLinesNE (c :: r)
          = (c :: (splitLinesNE r).1, (splitLinesNE r).2) by simp [splitLinesNE, hc]]
      refine ⟨?_, ih.2⟩
      intro hm
      rcases List.mem_cons.1 hm with h | h
      · exact hc h.symm
      · exact ih.1 h

theorem splitLines_no_nl {l m : List Char} (hm : m ∈ splitLines l) : '\n' ∉ m := by
  rcases List.mem_cons.1 hm with h | h
  · subst h; exact (SLNE_no_nl l).1
  · exact (SLNE_no_nl l).2 m h

theorem mem_of_mem_splitLines (l : List Char) :
    ∀ m ∈ splitLines l, ∀ c ∈ m, c ∈ l := by
  induction l with
  | nil =>
    intro m hm c hc
    rcases List.mem_cons.1 hm with h | h
    · subst h; cases hc
    · simp [splitLines, splitLinesNE] at h
  | cons d r ih =>
    intro m hm c hc
    by_cases hd : d = '\n'
    · subst hd
      rw [show splitLines ('\n' :: r) = [] :: splitLines r by
        simp [splitLines, splitLinesNE]] at hm
      rcases List.mem_cons.1 hm with h | h
      · subst h; cases hc
      · exact List.mem_cons_of_mem _ (ih m h c hc)
    · rw [show splitLines (d :: r)
          = (d :: (splitLinesNE r).1) :: (splitLinesNE r).2 by
        simp [splitLines, splitLinesNE, hd]] at hm
      rcases List.mem_cons.1 hm with h | h
      · subst h
        rcases List.mem_cons.1 hc with h' | h'
        · simp [h']
        · refine List.mem_cons_of_mem _ (ih (splitLinesNE r).1 ?_ c h')
          exact List.mem_cons_self _ _
      · refine List.mem_cons_of_mem _ (ih m ?_ c hc)
        exact List.mem_cons_of_mem _ h

theorem joinNL_splitLines (l : List Char) : joinNL (splitLines l) = l := by
  induction l with
  | nil => rfl
  | cons c r ih =>
    by_cases hc : c = '\n'
    · subst hc
      rw [show splitLines ('\n' :: r) = [] :: splitLines r by
        simp [splitLines, splitLinesNE]]
      rw [show joinNL ([] :: splitLines r) = [] ++ '\n' :: joinNL (splitLines r)
        from rfl]
      rw [ih]
      rfl
    · rw [show splitLines (c :: r)
        = (c :: (splitLinesNE r).1) :: (splitLinesNE r).2 by
        simp [splitLines, splitLinesNE, hc]]
      cases h2 : (splitLinesNE r).2 with
      | nil =>
        have hfst : (splitLinesNE r).1 = r := by
          have hr := ih
          rw [show splitLines r = (splitLinesNE r).1 :: (splitLinesNE r).2
            from rfl, h2] at hr
          simpa [joinNL] using hr
        rw [show joinNL [c :: (splitLinesNE r).1] = c :: (splitLinesNE r).1
          from rfl, hfst]
      | cons q qs =>
        have hj : joinNL ((c :: (splitLinesNE r).1) :: q :: qs)
            = c :: joinNL ((splitLinesNE r).1 :: q :: qs) := rfl
        rw [hj]
        have hr := ih
        rw [show splitLines r = (splitLinesNE r).1 :: (splitLinesNE r).2
          from rfl, h2] at hr
        rw [hr]

theorem SLNE_of_no_nl {l : List Char} (h : '\n' ∉ l) : splitLinesNE l = (l, []) := by
  induction l with
  | nil => rfl
  | cons c r ih =>
    have hc : ¬c = '\n' := fun hc => h (by simp [hc])
    have hr := ih fun hm => h (List.mem_cons_of_mem _ hm)
    simp [splitLinesNE, hc, hr]

theorem SLNE_append_nl {l : List Char} (h : '\n' ∉ l) (z : List Char) :
    splitLinesNE (l ++ '\n' :: z)
      = (l, (splitLinesNE z).1 :: (splitLinesNE z).2) := by
  induction l with
  | nil => simp [splitLinesNE]
  | cons c r ih =>
    have hc : ¬c = '\n' := fun hc => h (by simp [hc])
    have hr := ih fun hm => h (List.mem_cons_of_mem _ hm)
    simp [splitLinesNE, hc, hr]

theorem splitLines_joinNL : ∀ L : List (List Char), (∀ m ∈ L, '\n' ∉ m) →
    L ≠ [] → splitLines (joinNL L) = L := by
  intro L
  induction L with
  | nil => intro _ h; exact absurd rfl h
  | cons x xs ih =>
    intro hm _
    cases xs with
    | nil =>
      rw [show joinNL [x] = x from rfl]
      have := SLNE_of_no_nl (hm x (by simp))
      simp [splitLines, this]
    | cons y ys =>
      rw [show joinNL (x :: y :: ys) = x ++ '\n' :: joinNL (y :: ys) from rfl]
      have h1 : splitLines (x ++ '\n' :: joinNL (y :: ys))
          = x :: splitLines (joinNL (y :: ys)) := by
        rw [show splitLines (x ++ '\n' :: joinNL (y :: ys))
            = (splitLinesNE (x ++ '\n' :: joinNL (y :: ys))).1
              :: (splitLinesNE (x ++ '\n' :: joinNL (y :: ys))).2 from rfl]
        rw [SLNE_append_nl (hm x (by simp))]
        rfl
      rw [h1, ih (fun m hmem => hm m (List.mem_cons_of_mem _ hmem)) (by simp)]


theorem dropWhile_append_singleton (p : Char → Bool) (c : Char) :
    ∀ xs : List Char, List.dropWhile p (xs ++ [c])
      = if List.dropWhile p xs = [] then (if p c then [] else [c])
        else List.dropWhile p xs ++ [c] := by
  intro xs
  induction xs with
  | nil =>
    simp only [List.nil_append, List.dropWhile_nil, if_pos rfl, List.dropWhile]
    cases p c <;> rfl
  | cons x xs ih =>
    by_cases hx : p x = true
    · rw [List.cons_append, List.dropWhile_cons, if_pos hx, ih,
        List.dropWhile_cons, if_pos hx]
    · rw [List.cons_append, List.dropWhile_cons, if_neg hx,
        List.dropWhile_cons, if_neg hx]
      simp

/-- `rstrip` unfolded one character at the front. -/
theorem rstrip_cons (c : Char) (r : List Char) :
    rstripFn (c :: r) = if rstripFn r = [] then (if pyIsSpace c then [] else [c])
      else c :: rstripFn r := by
  unfold rstripFn
  rw [show (c :: r).reverse = r.reverse ++ [c] by simp]
  rw [dropWhile_append_singleton]
  have hcond : (List.dropWhile pyIsSpace r.reverse = [])
      ↔ ((List.dropWhile pyIsSpace r.reverse).reverse = []) := by
    constructor
    · intro h; rw [h]; rfl
    · intro h; exact List.reverse_eq_nil_iff.1 h
  by_cases h : List.dropWhile pyIsSpace r.reverse = []
  · rw [if_pos h, if_pos (hcond.1 h)]
    by_cases hc : pyIsSpace c = true <;> simp [hc]
  · rw [if_neg h, if_neg (fun hh => h (hcond.2 hh))]
    simp

theorem linesRfix_tail {c : Char} {r : List Char}
    (h : ∀ m ∈ splitLines (c :: r), rstripFn m = m) :
    ∀ m ∈ splitLines r, rstripFn m = m := by
  intro m hm
  by_cases hc : c = '\n'
  · subst hc
    apply h
    rw [show splitLines ('\n' :: r) = [] :: splitLines r by
      simp [splitLines, splitLinesNE]]
    exact List.mem_cons_of_mem _ hm
  · rw [show splitLines (c :: r)
      = (c :: (splitLinesNE r).1) :: (splitLinesNE r).2 by
      simp [splitLines, splitLinesNE, hc]] at h
    rcases List.mem_cons.1 hm with h1 | h1
    · subst h1
      have := h (c :: (splitLinesNE r).1) (List.mem_cons_self _ _)
      exact rstrip_fix_suffix (a := [c]) rfl this
    · exact h m (List.mem_cons_of_mem _ h1)

theorem linesRfix_lstrip : ∀ z : List Char,
    (∀ m ∈ splitLines z, rstripFn m = m) →
    ∀ m ∈ splitLines (lstripFn z), rstripFn m = m := by
  intro z
  induction z with
  | nil => intro h; exact h
  | cons c r ih =>
    intro h
    by_cases hc : pyIsSpace c = true
    · rw [show lstripFn (c :: r) = lstripFn r by
        simp [lstripFn, List.dropWhile_cons, hc]]
      exact ih (linesRfix_tail h)
    · rw [show lstripFn (c :: r) = c :: r by
        simp [lstripFn, List.dropWhile_cons, hc]]
      exact h

theorem linesRfix_rstrip : ∀ z : List Char,
    (∀ m ∈ splitLines z, rstripFn m = m) →
    ∀ m ∈ splitLines (rstripFn z), rstripFn m = m := by
  intro z
  induction z with
  | nil => intro h; exact h
  | cons c r ih =>
    intro h
    rw [rstrip_cons]
    by_cases hr0 : rstripFn r = []
    · rw [if_pos hr0]
      by_cases hc : pyIsSpace c = true
      · rw [if_pos hc]
        intro m hm
        rcases List.mem_cons.1 hm with h1 | h1
        · subst h1; rfl
        · simp [splitLines, splitLinesNE] at h1
      · rw [if_neg hc]
        have hcn : ¬c = '\n' := fun hcc => hc (by rw [hcc]; decide)
        intro m hm
        rw [show splitLines [c] = [[c]] by simp [splitLines, splitLinesNE, hcn]] at hm
        rcases List.mem_cons.1 hm with h1 | h1
        · subst h1
          exact rstrip_fix_of_getLast (l := [c]) rfl (by simpa using hc)
        · simp at h1
    · rw [if_neg hr0]
      have hLr : ∀ m ∈ splitLines r, rstripFn m = m := linesRfix_tail h
      have hLrr : ∀ m ∈ splitLines (rstripFn r), rstripFn m = m := ih hLr
      by_cases hc : c = '\n'
      · subst hc
        intro m hm
        rw [show splitLines ('\n' :: rstripFn r) = [] :: splitLines (rstripFn r) by
          simp [splitLines, splitLinesNE]] at hm
        rcases List.mem_cons.1 hm with h1 | h1
        · subst h1; rfl
        · exact hLrr m h1
      · intro m hm
        rw [show splitLines (c :: rstripFn r)
          = (c :: (splitLinesNE (rstripFn r)).1) :: (splitLinesNE (rstripFn r)).2 by
          simp [splitLines, splitLinesNE, hc]] at hm
        rcases List.mem_cons.1 hm with h1 | h1
        · subst h1
          by_cases hq : (splitLinesNE (rstripFn r)).1 = []
          · rw [hq]
            have hw : (rstripFn r).head? = some '\n' := by
              cases hw : rstripFn r with
              | nil => exact absurd hw hr0
              | cons d t =>
                rw [hw] at hq
                by_cases hd : d = '\n'
                · rw [hd]; rfl
                · rw [show (splitLinesNE (d :: t)).1 = d :: (splitLinesNE t).1 by
                    simp [splitLinesNE, hd]] at hq
                  cases hq
            have hrh : r.head? = some '\n' := by
              rw [← rstrip_head hr0]; exact hw
            have hre : ∃ t', r = '\n' :: t' := by
              cases r with
              | nil => cases hrh
              | cons d t =>
                simp only [List.head?_cons, Option.some_inj] at hrh
                exact ⟨t, by rw [hrh]⟩
            rcases hre with ⟨t', ht'⟩
            have hcfix : rstripFn [c] = [c] := by
              apply h
              rw [ht']
              rw [show splitLines (c :: '\n' :: t')
                = [c] :: splitLines t' by simp [splitLines, splitLinesNE, hc]]
              exact List.mem_cons_self _ _
            exact hcfix
          · have hq1 : rstripFn (splitLinesNE (rstripFn r)).1
                = (splitLinesNE (rstripFn r)).1 := by
              apply hLrr
              exact List.mem_cons_self _ _
            rcases rfix_getLast hq1 hq with ⟨e, he, hews⟩
            apply rstrip_fix_of_getLast (c := e) _ hews
            cases hql : (splitLinesNE (rstripFn r)).1 with
            | nil => exact absurd hql hq
            | cons x xs =>
              rw [List.getLast?_cons_cons]
              rw [hql] at he
              exact he
        · exact hLrr m (List.mem_cons_of_mem _ h1)

/-- Rule 5 is idempotent. -/
theorem nzJoin_idem (x : List Char) : nzJoin (nzJoin x) = nzJoin x := by
  have hnl : ∀ m ∈ (splitLines x).map rstripFn, '\n' ∉ m := by
    intro m hm
    rcases List.mem_map.1 hm with ⟨m', hm', he⟩
    subst he
    exact fun hin => splitLines_no_nl hm' (mem_rstrip hin)
  have hne : (splitLines x).map rstripFn ≠ [] := by
    simp [splitLines]
  have hw : splitLines (joinNL ((splitLines x).map rstripFn))
      = (splitLines x).map rstripFn := splitLines_joinNL _ hnl hne
  have hLw : ∀ m ∈ splitLines (joinNL ((splitLines x).map rstripFn)),
      rstripFn m = m := by
    rw [hw]
    intro m hm
    rcases List.mem_map.1 hm with ⟨m', _, he⟩
    subst he
    exact rstrip_idem m'
  have hLy : ∀ m ∈ splitLines (nzJoin x), rstripFn m = m := by
    unfold nzJoin stripFn
    exact linesRfix_rstrip _ (linesRfix_lstrip _ hLw)
  show nzJoin (nzJoin x) = nzJoin x
  conv_lhs => rw [nzJoin]
  rw [List.map_congr_left hLy, show List.map (fun a => a) (splitLines (nzJoin x))
    = splitLines (nzJoin x) by simp, joinNL_splitLines]
  show stripFn (nzJoin x) = nzJoin x
  unfold nzJoin
  exact strip_idem _

theorem mem_joinNL {c : Char} : ∀ L : List (List Char),
    c ∈ joinNL L → c = '\n' ∨ ∃ m ∈ L, c ∈ m := by
  intro L
  induction L with
  | nil => intro h; cases h
  | cons m ms ih =>
    intro h
    cases ms with
    | nil =>
      rw [show joinNL [m] = m from rfl] at h
      exact Or.inr ⟨m, by simp, h⟩
    | cons m2 ms2 =>
      rw [show joinNL (m :: m2 :: ms2) = m ++ '\n' :: joinNL (m2 :: ms2)
        from rfl] at h
      rcases List.mem_append.1 h with h1 | h1
      · exact Or.inr ⟨m, by simp, h1⟩
      · rcases List.mem_cons.1 h1 with h2 | h2
        · exact Or.inl h2
        · rcases ih h2 with h3 | ⟨m3, hm3, hc3⟩
          · exact Or.inl h3
          · exact Or.inr ⟨m3, List.mem_cons_of_mem _ hm3, hc3⟩

theorem mem_nzJoin {c : Char} {l : List Char} (h : c ∈ nzJoin l) :
    c = '\n' ∨ c ∈ l := by
  unfold nzJoin stripFn at h
  have h1 : c ∈ joinNL ((splitLines l).map rstripFn) :=
    mem_lstrip (mem_rstrip h)
  rcases mem_joinNL _ h1 with h2 | ⟨m, hm, hc⟩
  · exact Or.inl h2
  · rcases List.mem_map.1 hm with ⟨m', hm', he⟩
    subst he
    exact Or.inr (mem_of_mem_splitLines l m' hm' c (mem_rstrip hc))

theorem noAdjSp_suffix : ∀ (a b : List Char), noAdjSp (a ++ b) → noAdjSp b := by
  intro a
  induction a with
  | nil => intro b h; exact h
  | cons x a ih => intro b h; exact ih b (noAdjSp_cons_elim h)

theorem noAdjSp_prefix : ∀ (a b : List Char), noAdjSp (a ++ b) → noAdjSp a := by
  intro a
  induction a with
  | nil => intro _ _; exact noAdjSp_nil
  | cons x a ih =>
    intro b h
    cases a with
    | nil => exact noAdjSp_single x
    | cons z a' =>
      exact ⟨noAdjSp_cons_pair h, ih b (noAdjSp_cons_elim h)⟩

theorem noAdjSp_lines : ∀ z : List Char, noAdjSp z →
    ∀ m ∈ splitLines z, noAdjSp m := by
  intro z
  induction z with
  | nil =>
    intro _ m hm
    rcases List.mem_cons.1 hm with h | h
    · subst h; exact noAdjSp_nil
    · simp [splitLines, splitLinesNE] at h
  | cons c r ih =>
    intro h m hm
    by_cases hc : c = '\n'
    · subst hc
      rw [show splitLines ('\n' :: r) = [] :: splitLines r by
        simp [splitLines, splitLinesNE]] at hm
      rcases List.mem_cons.1 hm with h1 | h1
      · subst h1; exact noAdjSp_nil
      · exact ih (noAdjSp_cons_elim h) m h1
    · rw [show splitLines (c :: r)
        = (c :: (splitLinesNE r).1) :: (splitLinesNE r).2 by
        simp [splitLines, splitLinesNE, hc]] at hm
      rcases List.mem_cons.1 hm with h1 | h1
      · subst h1
        have hp1 : noAdjSp (splitLinesNE r).1 := by
          have : (splitLinesNE r).1 ∈ splitLines r := List.mem_cons_self _ _
          exact ih (noAdjSp_cons_elim h) _ this
        apply noAdjSp_cons_intro hp1
        intro y hy
        apply noAdjSp_head_pair h
        cases r with
        | nil => simp [splitLinesNE] at hy
        | cons d t =>
          by_cases hd : d = '\n'
          · rw [show (splitLinesNE (d :: t)).1 = [] by simp [splitLinesNE, hd]] at hy
            cases hy
          · rw [show (splitLinesNE (d :: t)).1 = d :: (splitLinesNE t).1 by
              simp [splitLinesNE, hd]] at hy
            simp only [List.head?_cons, Option.some_inj] at hy
            subst hy
            rfl
      · exact ih (noAdjSp_cons_elim h) m (List.mem_cons_of_mem _ h1)

theorem noAdjSp_rstrip {m : List Char} (h : noAdjSp m) : noAdjSp (rstripFn m) := by
  rcases rstrip_decomp m with ⟨t, hm, _⟩
  exact noAdjSp_prefix _ t (hm ▸ h)

theorem noAdjSp_lstrip {m : List Char} (h : noAdjSp m) : noAdjSp (lstripFn m) := by
  rcases lstrip_decomp m with ⟨a, hm, _⟩
  exact noAdjSp_suffix a _ (hm ▸ h)

theorem noAdjSp_append_nl : ∀ (a b : List Char), noAdjSp a → noAdjSp b →
    noAdjSp (a ++ '\n' :: b) := by
  intro a
  induction a with
  | nil =>
    intro b _ hb
    exact noAdjSp_cons_intro hb fun y _ => okPair_left (by decide)
  | cons x a ih =>
    intro b ha hb
    rw [List.cons_append]
    apply noAdjSp_cons_intro (ih b (noAdjSp_cons_elim ha) hb)
    intro y hy
    cases a with
    | nil =>
      simp only [List.nil_append, List.head?_cons, Option.some_inj] at hy
      subst hy
      exact okPair_right (by decide)
    | cons z a' =>
      simp only [List.cons_append, List.head?_cons, Option.some_inj] at hy
      subst hy
      exact noAdjSp_cons_pair ha

theorem noAdjSp_joinNL : ∀ L : List (List Char), (∀ m ∈ L, noAdjSp m) →
    noAdjSp (joinNL L) := by
  intro L
  induction L with
  | nil => intro _; exact noAdjSp_nil
  | cons m ms ih =>
    intro h
    cases ms with
    | nil => exact h m (by simp)
    | cons m2 ms2 =>
      rw [show joinNL (m :: m2 :: ms2) = m ++ '\n' :: joinNL (m2 :: ms2) from rfl]
      exact noAdjSp_append_nl m _ (h m (by simp))
        (ih fun m' hm' => h m' (List.mem_cons_of_mem _ hm'))

/-- Rule 5 preserves absence of adjacent space pairs. -/
theorem noAdjSp_nzJoin {z : List Char} (h : noAdjSp z) : noAdjSp (nzJoin z) := by
  unfold nzJoin stripFn
  apply noAdjSp_rstrip
  apply noAdjSp_lstrip
  apply noAdjSp_joinNL
  intro m hm
  rcases List.mem_map.1 hm with ⟨m', hm', he⟩
  subst he
  exact noAdjSp_rstrip (noAdjSp_lines z h m' hm')

theorem no_bad_char_x3 (s : List Char) :
    ('\r' ∉ nzSp (nzTab (nzCr s)))
    ∧ (∀ c, isTabFfVt c = true → c ∉ nzSp (nzTab (nzCr s)))
    ∧ (' ' ∉ nzSp (nzTab (nzCr s))) := by
  refine ⟨?_, ?_, nzSp_no_nbsp _⟩
  · intro hin
    rcases mem_nzSp hin with h | h
    · exact absurd h (by decide)
    · rcases mem_nzTab h with h2 | h2
      · exact absurd h2 (by decide)
      · exact nzCr_no_cr s h2
  · intro c hc hin
    rcases mem_nzSp hin with h | h
    · rw [h] at hc; simp [isTabFfVt] at hc
    · exact nzTab_no_tab hc _ h

theorem normalize_chars (s : List Char) {c : Char} (h : c ∈ normalize_spaces s) :
    c = '\n' ∨ c ∈ nzSp (nzTab (nzCr s)) := by
  unfold normalize_spaces at h
  rcases mem_nzJoin h with h1 | h1
  · exact Or.inl h1
  · rcases mem_nzNlGo _ _ h1 with h2 | h2
    · exact Or.inl h2
    · exact Or.inr h2

/-- `normalize_spaces` is idempotent on every input whose normalized form is
free of triple newlines. -/
theorem normalize_spaces_idem_of_no_triple (s : List Char)
    (h : hasTripleNL (normalize_spaces s) = false) :
    normalize_spaces (normalize_spaces s) = normalize_spaces s := by
  obtain ⟨hx3r, hx3t, hx3n⟩ := no_bad_char_x3 s
  have hyr : '\r' ∉ normalize_spaces s := by
    intro hin
    rcases normalize_chars s hin with h1 | h1
    · exact absurd h1 (by decide)
    · exact hx3r h1
  have hyt : ∀ c ∈ normalize_spaces s, isTabFfVt c = false := by
    intro c hc
    cases hct : isTabFfVt c with
    | false => rfl
    | true =>
      exfalso
      rcases normalize_chars s hc with h1 | h1
      · rw [h1] at hct; simp [isTabFfVt] at hct
      · exact hx3t c hct h1
  have hyn : ' ' ∉ normalize_spaces s := by
    intro hin
    rcases normalize_chars s hin with h1 | h1
    · exact absurd h1 (by decide)
    · exact hx3n h1
  have hadj : noAdjSp (normalize_spaces s) := by
    unfold normalize_spaces
    exact noAdjSp_nzJoin (noAdjSp_nzNlGo _ 0 (noAdjSp_nzSp _))
  have e1 : nzCr (normalize_spaces s) = normalize_spaces s := nzCr_fix hyr
  have e2 : nzTab (normalize_spaces s) = normalize_spaces s := nzTab_fix hyt
  have e3 : nzSp (normalize_spaces s) = normalize_spaces s := nzSp_fix hyn hadj
  have e4 : nzNl (normalize_spaces s) = normalize_spaces s := nzNl_fix h
  show nzJoin (nzNl (nzSp (nzTab (nzCr (normalize_spaces s))))) = normalize_spaces s
  rw [e1, e2, e3, e4]
  exact nzJoin_idem _

theorem insLetter_mem (c x : Char) : ∀ l : List Char,
    (x ∈ insLetter c l ↔ x = c ∨ x ∈ l) := by
  intro l
  induction l with
  | nil => simp [insLetter]
  | cons d r ih =>
    by_cases h1 : c < d
    · simp [insLetter, h1] <;> tauto
    · by_cases h2 : c = d
      · subst h2
        simp [insLetter, h1] <;> tauto
      · simp [insLetter, h1, h2, ih] <;> tauto

theorem insLetter_sorted (c : Char) : ∀ l : List Char,
    l.Sorted (· < ·) → (insLetter c l).Sorted (· < ·) := by
  intro l
  induction l with
  | nil => intro _; simp [insLetter]
  | cons d r ih =>
    intro h
    rw [List.sorted_cons] at h
    by_cases h1 : c < d
    · rw [show insLetter c (d :: r) = c :: d :: r by simp [insLetter, h1]]
      rw [List.sorted_cons]
      refine ⟨?_, by rw [List.sorted_cons]; exact h⟩
      intro b hb
      rcases List.mem_cons.1 hb with h2 | h2
      · subst h2; exact h1
      · exact lt_trans h1 (h.1 b h2)
    · by_cases h2 : c = d
      · subst h2
        rw [show insLetter c (c :: r) = c :: r by simp [insLetter, h1]]
        rw [List.sorted_cons]
        exact h
      · have h3 : d < c := by
          rcases lt_trichotomy c d with ht | ht | ht
          · exact absurd ht h1
          · exact absurd ht h2
          · exact ht
        rw [show insLetter c (d :: r) = d :: insLetter c r by simp [insLetter, h1, h2]]
        rw [List.sorted_cons]
        refine ⟨?_, ih h.2⟩
        intro b hb
        rcases (insLetter_mem c b r).1 hb with h4 | h4
        · subst h4; exact h3
        · exact h.1 b h4

theorem norm_letters_sorted (s : List Char) : (norm_letters s).Sorted (· < ·) := by
  unfold norm_letters
  generalize (s.map asciiUpper).filter isAH = l
  induction l with
  | nil => simp
  | cons c r ih => exact insLetter_sorted c _ ih

theorem norm_letters_nodup (s : List Char) : (norm_letters s).Nodup :=
  (norm_letters_sorted s).nodup

theorem norm_letters_mem (s : List Char) (x : Char) :
    x ∈ norm_letters s ↔ ('A' ≤ x ∧ x ≤ 'H' ∧ x ∈ s.map asciiUpper) := by
  unfold norm_letters
  have key : ∀ l : List Char, x ∈ l.foldr insLetter [] ↔ x ∈ l := by
    intro l
    induction l with
    | nil => simp
    | cons c r ih =>
      simp only [List.foldr_cons, insLetter_mem, ih, List.mem_cons]
  rw [key, List.mem_filter]
  unfold isAH
  constructor
  · rintro ⟨h1, h2⟩
    simp at h2
    exact ⟨h2.1, h2.2, h1⟩
  · rintro ⟨h1, h2, h3⟩
    exact ⟨h3, by simp [h1, h2]⟩

/-- C6: the type classifier is the stated decision table: section `判断题`
always classifies `judge`; with non-empty options the canonical letter form of
the answer (uppercase, A–H only, deduplicated, sorted) decides
`multi`/`single`/`choice` by its size; with empty options the section decides
`fill`/`short`/`text`; and concretely for options `A–D`, answer `"AC"` gives
`multi`, `"B"` gives `single`, `""` gives `choice`, while `判断题` gives
`judge` regardless. -/
theorem C6_type_classification (sect : List Char)
    (options : List (Char × List Char)) (answer : List Char) :
    (sect = "判断题".data → infer_qtype sect options answer = "judge".data)
    ∧ (sect ≠ "判断题".data → options ≠ [] →
        ((infer_qtype sect options answer = "multi".data
            ↔ 2 ≤ (norm_letters answer).length)
         ∧ (infer_qtype sect options answer = "single".data
            ↔ (norm_letters answer).length = 1)
         ∧ (infer_qtype sect options answer = "choice".data
            ↔ norm_letters answer = [])))
    ∧ (sect ≠ "判断题".data → options = [] →
        infer_qtype sect options answer =
          (if sect = "填空题".data then "fill".data
           else if sect = "简答题".data then "short".data else "text".data))
    ∧ (norm_letters answer).Sorted (· < ·)
    ∧ (norm_letters answer).Nodup
    ∧ (∀ c, c ∈ norm_letters answer
        ↔ ('A' ≤ c ∧ c ≤ 'H' ∧ c ∈ answer.map asciiUpper))
    ∧ (infer_qtype "单选题".data
        [('A', "红".data), ('B', "蓝".data), ('C', "绿".data), ('D', "黄".data)]
        "AC".data = "multi".data
      ∧ infer_qtype "单选题".data
        [('A', "红".data), ('B', "蓝".data), ('C', "绿".data), ('D', "黄".data)]
        "B".data = "single".data
      ∧ infer_qtype "单选题".data
        [('A', "红".data), ('B', "蓝".data), ('C', "绿".data), ('D', "黄".data)]
        [] = "choice".data
      ∧ infer_qtype "判断题".data
        [('A', "红".data), ('B', "蓝".data), ('C', "绿".data), ('D', "黄".data)]
        "A".data = "judge".data) := by
  refine ⟨?_, ?_, ?_, norm_letters_sorted answer, norm_letters_nodup answer,
    norm_letters_mem answer, by decide, by decide, by decide, by decide⟩
  · intro h
    simp [infer_qtype, h]
  · intro h1 h2
    have hne : options.isEmpty = false := by
      cases options with
      | nil => exact absurd rfl h2
      | cons o os => rfl
    have hms : ("multi".data : List Char) ≠ "single".data := by decide
    have hmc : ("multi".data : List Char) ≠ "choice".data := by decide
    have hsc : ("single".data : List Char) ≠ "choice".data := by decide
    by_cases hm : 2 ≤ (norm_letters answer).length
    · have he : infer_qtype sect options answer = "multi".data := by
        simp [infer_qtype, h1, hne, hm]
      rw [he]
      exact ⟨⟨fun _ => hm, fun _ => rfl⟩,
        ⟨fun hx => absurd hx hms, fun hx => absurd hm (by omega)⟩,
        ⟨fun hx => absurd hx hmc, fun hx => by rw [hx] at hm; simp at hm⟩⟩
    · by_cases hs : (norm_letters answer).length = 1
      · have he : infer_qtype sect options answer = "single".data := by
          simp [infer_qtype, h1, hne, hm, hs]
        rw [he]
        exact ⟨⟨fun hx => absurd hx (Ne.symm hms), fun hx => absurd hx (by omega)⟩,
          ⟨fun _ => hs, fun _ => rfl⟩,
          ⟨fun hx => absurd hx hsc, fun hx => by rw [hx] at hs; simp at hs⟩⟩
      · have hz : norm_letters answer = [] := by
          have : (norm_letters answer).length = 0 := by omega
          exact List.length_eq_zero.1 this
        have he : infer_qtype sect options answer = "choice".data := by
          simp [infer_qtype, h1, hne, hm, hs]
        rw [he]
        exact ⟨⟨fun hx => absurd hx (Ne.symm hmc), fun hx => absurd hx hm⟩,
          ⟨fun hx => absurd hx (Ne.symm hsc), fun hx => absurd hx hs⟩,
          ⟨fun _ => hz, fun _ => rfl⟩⟩
  · intro h1 h2
    subst h2
    simp [infer_qtype, h1]

/-- Witness for C6 at a concrete classification instance. -/
theorem C6_type_classification_witness :
    (("判断题".data : List Char) = "判断题".data →
      infer_qtype "判断题".data [('A', "对".data)] "X".data = "judge".data)
    ∧ infer_qtype "判断题".data [('A', "对".data)] "X".data = "judge".data :=
  ⟨(C6_type_classification "判断题".data [('A', "对".data)] "X".data).1,
   (C6_type_classification "判断题".data [('A', "对".data)] "X".data).1 rfl⟩

/-- C8: the fingerprint is a deterministic hash of the canonical serialization
of exactly stem, options, answer and section: re-extracting the identical
document yields identical fingerprints, and any two records agreeing on those
four fields — whatever their source, number, analysis or score — share one
fingerprint. -/
theorem C8_fingerprint_basis :
    (∀ t src : List Char,
      (parse_questions t src).map qhashOf = (parse_questions t src).map qhashOf)
    ∧ (∀ q1 q2 : QuestionRecord, q1.stem = q2.stem → q1.options = q2.options →
        q1.answer = q2.answer → q1.sect = q2.sect → qhashOf q1 = qhashOf q2) := by
  refine ⟨fun _ _ => rfl, fun q1 q2 h1 h2 h3 h4 => ?_⟩
  unfold qhashOf canonicalBase
  rw [h1, h2, h3, h4]

/-- Witness for C8: two records differing only in source, number, analysis and
score have equal fingerprints. -/
theorem C8_fingerprint_basis_witness :
    ((QuestionRecord.mk "a.docx".data 1 "单选题".data "single".data "题干".data
        [('A', "红".data)] "A".data "解释".data (some 2)).stem
      = (QuestionRecord.mk "b.docx".data 9 "单选题".data "single".data "题干".data
        [('A', "红".data)] "A".data [] none).stem)
    ∧ qhashOf (QuestionRecord.mk "a.docx".data 1 "单选题".data "single".data
        "题干".data [('A', "红".data)] "A".data "解释".data (some 2))
      = qhashOf (QuestionRecord.mk "b.docx".data 9 "单选题".data "single".data
        "题干".data [('A', "红".data)] "A".data [] none) :=
  ⟨rfl, C8_fingerprint_basis.2 _ _ rfl rfl rfl rfl⟩

/-- C9: structural absence never raises — text without question-start matches
parses to the empty record list, and a block with no usable lines produces
zero records. -/
theorem C9_structural_absence :
    (∀ t src : List Char, QSTART_findall (normalize_spaces t) = [] →
      parse_questions t src = [])
    ∧ (∀ (block : List Char) (n : Nat) (sect src : List Char),
      cleanLines block = [] → parse_block_common block n sect src = []) := by
  constructor
  · intro t src h
    simp only [parse_questions, h]
    rfl
  · intro block n sect src h
    unfold parse_block_common
    rw [h]

/-- Witness for C9 on a markerless text and a whitespace-only block. -/
theorem C9_structural_absence_witness :
    QSTART_findall (normalize_spaces "你好，世界。没有题号".data) = []
    ∧ parse_questions "你好，世界。没有题号".data "d.docx".data = []
    ∧ cleanLines "  \n\x09 ".data = []
    ∧ parse_block_common "  \n\x09 ".data 3 "未知".data "d.docx".data = [] :=
  ⟨by decide, C9_structural_absence.1 _ _ (by decide), by decide,
   C9_structural_absence.2 _ _ _ _ (by decide)⟩

/-- C10: once at least one sub-question marker is found, every record the
reading-comprehension splitter emits has empty options, no score and qtype
`text`; option-letter lines inside a sub-question stay in its stem (shown on a
concrete block). -/
theorem C10_reading_record_shape (block : List Char) (n : Nat) (src : List Char)
    (h : SUBQ_findall (blockWoNum block n) ≠ []) :
    (∀ r ∈ split_reading_block block n src,
      r.options = [] ∧ r.score = none ∧ r.qtype = "text".data)
    ∧ ((split_reading_block
          "1、材料\n（1）、下列哪个？\nA、红色\nB、蓝色\n答案：A".data
          1 "d.docx".data).map
        (fun r => (r.options, containsSeq "A、红色".data r.stem, r.answer))
      = [([], true, "A".data)]) := by
  constructor
  · intro r hr
    simp only [split_reading_block] at hr
    cases hsub : SUBQ_findall (blockWoNum block n) with
    | nil => exact absurd hsub h
    | cons s0 srest =>
      rw [hsub] at hr
      simp only [List.mem_map] at hr
      rcases hr with ⟨sp, _, he⟩
      subst he
      exact ⟨rfl, rfl, rfl⟩
  · decide

/-- Witness for C10 on a concrete reading block with a sub-marker. -/
theorem C10_reading_record_shape_witness :
    SUBQ_findall (blockWoNum "1、材料\n（1）、下列哪个？\nA、红色\nB、蓝色\n答案：A".data 1) ≠ []
    ∧ ∀ r ∈ split_reading_block
        "1、材料\n（1）、下列哪个？\nA、红色\nB、蓝色\n答案：A".data 1 "d.docx".data,
        r.options = [] ∧ r.score = none ∧ r.qtype = "text".data :=
  ⟨by decide,
   (C10_reading_record_shape
      "1、材料\n（1）、下列哪个？\nA、红色\nB、蓝色\n答案：A".data 1 "d.docx".data
      (by decide)).1⟩

/-- C2 (amended): a reading-comprehension block with a passage (containing a
score-like `(20.0)` line), then `（1）、问题一` with `答案：对` on its own line,
then `（2）、问题二` with `答案：错`, splits into exactly two records sharing
the passage prefix, with answers `对` and `错` and ordinals `(1)`/`(2)` in
their stems. -/
theorem C2_reading_fanout :
    (split_reading_block
        "1、下面是阅读材料第一行\n(20.0)\n材料第二行\n（1）、问题一\n答案：对\n（2）、问题二\n答案：错".data
        1 "d.docx".data).length = 2
    ∧ (split_reading_block
        "1、下面是阅读材料第一行\n(20.0)\n材料第二行\n（1）、问题一\n答案：对\n（2）、问题二\n答案：错".data
        1 "d.docx".data).map QuestionRecord.answer = ["对".data, "错".data]
    ∧ (∀ r ∈ split_reading_block
        "1、下面是阅读材料第一行\n(20.0)\n材料第二行\n（1）、问题一\n答案：对\n（2）、问题二\n答案：错".data
        1 "d.docx".data,
        startsWith "【阅读材料】下面是阅读材料第一行\n(20.0)\n材料第二行".data
          r.stem = true)
    ∧ (split_reading_block
        "1、下面是阅读材料第一行\n(20.0)\n材料第二行\n（1）、问题一\n答案：对\n（2）、问题二\n答案：错".data
        1 "d.docx".data).map (fun r => containsSeq "(1)".data r.stem)
      = [true, false]
    ∧ (split_reading_block
        "1、下面是阅读材料第一行\n(20.0)\n材料第二行\n（1）、问题一\n答案：对\n（2）、问题二\n答案：错".data
        1 "d.docx".data).map (fun r => containsSeq "(2)".data r.stem)
      = [false, true] := by
  decide

/-- Counterexample refuting C2 as stated: with `答案：对` on the same line as
the sub-question, the parser finds no answers at all — both records carry an
empty `answer` and the claimed `对`/`错` extraction fails. -/
theorem C2_reading_fanout_counterexample :
    ¬((split_reading_block
        "1、下面是阅读材料 (20.0) 含分值\n（1）、问题一 答案：对\n（2）、问题二 答案：错".data
        1 "d.docx".data).map QuestionRecord.answer = ["对".data, "错".data])
    ∧ (split_reading_block
        "1、下面是阅读材料 (20.0) 含分值\n（1）、问题一 答案：对\n（2）、问题二 答案：错".data
        1 "d.docx".data).map QuestionRecord.answer = [[], []]
    ∧ (split_reading_block
        "1、下面是阅读材料 (20.0) 含分值\n（1）、问题一 答案：对\n（2）、问题二 答案：错".data
        1 "d.docx".data).length = 2 := by
  decide

/-- C1 (amended): `normalize_spaces` is idempotent on every input whose
normalized form contains no run of three or more newlines — the only inputs
escaping idempotence are those where per-line trailing-whitespace trimming
turns whitespace-only lines into blank lines and thereby creates a fresh
`\n\n\n` run after the newline-collapsing rule has already run. -/
theorem C1_normalize_idempotent (s : List Char)
    (h : hasTripleNL (normalize_spaces s) = false) :
    normalize_spaces (normalize_spaces s) = normalize_spaces s :=
  normalize_spaces_idem_of_no_triple s h

/-- Witness for C1 on a concrete messy input. -/
theorem C1_normalize_idempotent_witness :
    hasTripleNL (normalize_spaces "1、hello \x09 world\r\n\r\n\r\n2、next  ".data) = false
    ∧ normalize_spaces (normalize_spaces "1、hello \x09 world\r\n\r\n\r\n2、next  ".data)
      = normalize_spaces "1、hello \x09 world\r\n\r\n\r\n2、next  ".data :=
  ⟨by decide, C1_normalize_idempotent _ (by decide)⟩

/-- Counterexample refuting C1 as stated: whitespace-only lines between
paragraphs become empty lines only after the newline-collapsing rule has run,
so normalizing a second time changes the text again. -/
theorem C1_normalize_idempotent_counterexample :
    normalize_spaces (normalize_spaces "a\n \n \n \nb".data)
      ≠ normalize_spaces "a\n \n \n \nb".data := by
  decide

/-- C3 (amended): every record the splitter emits (once a sub-marker exists)
has a stem composed from the passage prefixed once with the literal
`【阅读材料】`, a blank line, the sub-question ordinal as `(k)` and the
sub-stem; with an empty passage the prefix is omitted. -/
theorem C3_reading_stem_composition (block : List Char) (n : Nat)
    (src : List Char) (h : SUBQ_findall (blockWoNum block n) ≠ []) :
    ∀ r ∈ split_reading_block block n src,
      ∃ sp ∈ buildSpans (SUBQ_findall (blockWoNum block n))
          (blockWoNum block n).length,
        ∃ st : List Char,
          r.stem =
            if passageOf block n ≠ [] then
              stripFn ("【阅读材料】".data ++ passageOf block n ++ "\n\n(".data
                ++ sp.2.2 ++ ") ".data ++ st)
            else stripFn ("(".data ++ sp.2.2 ++ ") ".data ++ st) := by
  intro r hr
  simp only [split_reading_block] at hr
  cases hsub : SUBQ_findall (blockWoNum block n) with
  | nil => exact absurd hsub h
  | cons s0 srest =>
    rw [hsub] at hr
    simp only [List.mem_map] at hr
    rcases hr with ⟨sp, hsp, he⟩
    have hpass : passageOf block n = stripFn ((blockWoNum block n).take s0.1) := by
      unfold passageOf
      rw [hsub]
    refine ⟨sp, hsp, ?_⟩
    subst he
    by_cases hp : passageOf block n ≠ []
    · have hp' : stripFn ((blockWoNum block n).take s0.1) ≠ [] := by
        rw [← hpass]; exact hp
      have hb : (stripFn ((blockWoNum block n).take s0.1)).isEmpty = false := by
        cases hx : stripFn ((blockWoNum block n).take s0.1) with
        | nil => exact absurd hx hp'
        | cons a as => rfl
      refine ⟨stripFn (joinSpace ((cleanLines (stripFn (stripLeadSubq (stripFn
        (((blockWoNum block n).drop sp.1).take (sp.2.1 - sp.1)))))).takeWhile
          fun l => !ansMark l)), ?_⟩
      rw [if_pos hp, hpass]
      simp only [mkReadingRecord, hb, Bool.not_false, if_true]
    · push_neg at hp
      have hb : (stripFn ((blockWoNum block n).take s0.1)).isEmpty = true := by
        rw [← hpass, hp]
        rfl
      refine ⟨stripFn (joinSpace ((cleanLines (stripFn (stripLeadSubq (stripFn
        (((blockWoNum block n).drop sp.1).take (sp.2.1 - sp.1)))))).takeWhile
          fun l => !ansMark l)), ?_⟩
      rw [if_neg (by simp [hp])]
      simp only [mkReadingRecord, hb, Bool.not_true, Bool.false_eq_true, if_false]

/-- Witness for C3 on a concrete reading block with a non-empty passage. -/
theorem C3_reading_stem_composition_witness :
    SUBQ_findall (blockWoNum "1、材料正文\n（1）、问题一\n答案：对".data 1) ≠ []
    ∧ ∀ r ∈ split_reading_block "1、材料正文\n（1）、问题一\n答案：对".data 1
        "d.docx".data,
      ∃ sp ∈ buildSpans
          (SUBQ_findall (blockWoNum "1、材料正文\n（1）、问题一\n答案：对".data 1))
          (blockWoNum "1、材料正文\n（1）、问题一\n答案：对".data 1).length,
        ∃ st : List Char,
          r.stem =
            if passageOf "1、材料正文\n（1）、问题一\n答案：对".data 1 ≠ [] then
              stripFn ("【阅读材料】".data
                ++ passageOf "1、材料正文\n（1）、问题一\n答案：对".data 1
                ++ "\n\n(".data ++ sp.2.2 ++ ") ".data ++ st)
            else stripFn ("(".data ++ sp.2.2 ++ ") ".data ++ st) :=
  ⟨by decide, C3_reading_stem_composition _ 1 "d.docx".data (by decide)⟩

/-- Counterexample refuting C3 as stated: the literal prefix the code writes
is `【阅读材料】`, not `【阅读理解材料】` — no emitted stem starts with the
claimed string even though the passage is non-empty. -/
theorem C3_reading_stem_composition_counterexample :
    (∀ r ∈ split_reading_block
        "1、下面是阅读材料第一行\n(20.0)\n材料第二行\n（1）、问题一\n答案：对\n（2）、问题二\n答案：错".data
        1 "d.docx".data,
      startsWith "【阅读理解材料】".data r.stem = false)
    ∧ passageOf
        "1、下面是阅读材料第一行\n(20.0)\n材料第二行\n（1）、问题一\n答案：对\n（2）、问题二\n答案：错".data
        1 ≠ []
    ∧ (split_reading_block
        "1、下面是阅读材料第一行\n(20.0)\n材料第二行\n（1）、问题一\n答案：对\n（2）、问题二\n答案：错".data
        1 "d.docx".data).length = 2
    ∧ (∀ r ∈ split_reading_block
        "1、下面是阅读材料第一行\n(20.0)\n材料第二行\n（1）、问题一\n答案：对\n（2）、问题二\n答案：错".data
        1 "d.docx".data,
      startsWith "【阅读材料】".data r.stem = true) := by
  decide

theorem takeWhile_drop_eq (p : Char → Bool) : ∀ l : List Char,
    l = l.takeWhile p ++ l.drop (l.takeWhile p).length := by
  intro l
  induction l with
  | nil => rfl
  | cons c r ih =>
    by_cases hc : p c = true
    · rw [show (c :: r).takeWhile p = c :: r.takeWhile p by
        simp [List.takeWhile_cons, hc]]
      simp only [List.length_cons, List.drop_succ_cons, List.cons_append]
      exact congrArg (c :: ·) ih
    · rw [show (c :: r).takeWhile p = [] by simp [List.takeWhile_cons, hc]]
      rfl

theorem startsWith_iff : ∀ pat l : List Char,
    (startsWith pat l = true ↔ ∃ rest, l = pat ++ rest) := by
  intro pat
  induction pat with
  | nil => intro l; simp [startsWith]
  | cons p ps ih =>
    intro l
    cases l with
    | nil =>
      simp only [startsWith]
      constructor
      · intro h; cases h
      · rintro ⟨rest, hr⟩; cases hr
    | cons c cs =>
      rw [show startsWith (p :: ps) (c :: cs) = ((p == c) && startsWith ps cs)
        from rfl]
      constructor
      · intro h
        rw [Bool.and_eq_true] at h
        rcases (ih cs).1 h.2 with ⟨rest, hr⟩
        refine ⟨rest, ?_⟩
        have : p = c := by simpa using h.1
        rw [hr, this]
        rfl
      · rintro ⟨rest, hr⟩
        simp only [List.cons_append] at hr
        rw [Bool.and_eq_true]
        injection hr with h1 h2
        exact ⟨by simp [h1], (ih cs).2 ⟨rest, h2⟩⟩

theorem matchQStart_sound {l ds consumed rest : List Char}
    (h : matchQStart l = some (ds, consumed, rest)) :
    l = consumed ++ rest ∧ consumed ≠ []
    ∧ ∃ w1 s r2, l = w1 ++ ds ++ s :: r2
        ∧ (∀ c ∈ w1, pyIsSpace c = true)
        ∧ ds ≠ [] ∧ (∀ c ∈ ds, isDigit c = true)
        ∧ (s = '、' ∨ (s = '.' ∧ ∀ d rr, r2 = d :: rr → isDigit d = false)) := by
  have hl1 : l = List.takeWhile pyIsSpace l ++ List.dropWhile pyIsSpace l :=
    (List.takeWhile_append_dropWhile pyIsSpace l).symm
  have hw1 : ∀ c ∈ List.takeWhile pyIsSpace l, pyIsSpace c = true :=
    fun c hc => List.mem_takeWhile_imp hc
  simp only [matchQStart] at h
  by_cases hds : (List.takeWhile isDigit (List.dropWhile pyIsSpace l)).isEmpty = true
  · rw [if_pos hds] at h
    exact Option.noConfusion h
  · rw [if_neg hds] at h
    have hdsne : List.takeWhile isDigit (List.dropWhile pyIsSpace l) ≠ [] := by
      intro hc
      rw [hc] at hds
      exact hds rfl
    have hdig : ∀ c ∈ List.takeWhile isDigit (List.dropWhile pyIsSpace l),
        isDigit c = true := fun c hc => List.mem_takeWhile_imp hc
    have hr1 : List.dropWhile pyIsSpace l
        = List.takeWhile isDigit (List.dropWhile pyIsSpace l)
          ++ List.drop (List.takeWhile isDigit (List.dropWhile pyIsSpace l)).length
              (List.dropWhile pyIsSpace l) :=
      takeWhile_drop_eq isDigit (List.dropWhile pyIsSpace l)
    cases hdrop : List.drop
        (List.takeWhile isDigit (List.dropWhile pyIsSpace l)).length
        (List.dropWhile pyIsSpace l) with
    | nil =>
      rw [hdrop] at h
      exact Option.noConfusion h
    | cons s r2 =>
      rw [hdrop] at h hr1
      dsimp only at h
      rw [hr1] at hl1
      have hcover : l = (List.takeWhile pyIsSpace l
            ++ (List.takeWhile isDigit (List.dropWhile pyIsSpace l)
            ++ s :: List.takeWhile pyIsSpace r2))
          ++ List.dropWhile pyIsSpace r2 := by
        conv_lhs => rw [hl1]
        conv_lhs => rw [← List.takeWhile_append_dropWhile pyIsSpace r2]
        simp [List.append_assoc]
      have hsh : l = List.takeWhile pyIsSpace l
          ++ List.takeWhile isDigit (List.dropWhile pyIsSpace l) ++ s :: r2 := by
        conv_lhs => rw [hl1]
        simp [List.append_assoc]
      by_cases hsep1 : (s == '、') = true
      · rw [if_pos hsep1] at h
        simp only [Option.some.injEq, Prod.mk.injEq] at h
        obtain ⟨hds_eq, hcons_eq, hrest_eq⟩ := h
        have hs : s = '、' := by simpa using hsep1
        rw [show (List.takeWhile pyIsSpace l
            ++ (List.takeWhile isDigit (List.dropWhile pyIsSpace l)
            ++ s :: List.takeWhile pyIsSpace r2)) = consumed by
          rw [← hcons_eq]; simp [List.append_assoc], hrest_eq] at hcover
        rw [hds_eq] at hsh hdsne hdig
        refine ⟨hcover, ?_, List.takeWhile pyIsSpace l, s, r2, hsh, hw1,
          hdsne, hdig, Or.inl hs⟩
        rw [← hcons_eq]
        simp
      · rw [if_neg hsep1] at h
        by_cases hsep2 : (s == '.') = true
        · rw [if_pos hsep2] at h
          have hs : s = '.' := by simpa using hsep2
          cases hr2c : r2 with
          | nil =>
            rw [hr2c] at h
            dsimp only at h
            simp only [Option.some.injEq, Prod.mk.injEq] at h
            obtain ⟨hds_eq, hcons_eq, hrest_eq⟩ := h
            subst hrest_eq
            rw [hr2c] at hcover hsh
            have hcons2 : (List.takeWhile pyIsSpace l
                ++ (List.takeWhile isDigit (List.dropWhile pyIsSpace l)
                ++ s :: List.takeWhile pyIsSpace ([] : List Char))) = consumed := by
              rw [← hcons_eq]
              simp [List.append_assoc]
            rw [hcons2] at hcover
            rw [hds_eq] at hsh hdsne hdig
            refine ⟨by simpa using hcover, ?_, List.takeWhile pyIsSpace l, s, [],
              hsh, hw1, hdsne, hdig, Or.inr ⟨hs, ?_⟩⟩
            · rw [← hcons_eq]
              simp
            · intro d rr hc
              cases hc
          | cons d rr =>
            rw [hr2c] at h
            dsimp only at h
            by_cases hdig2 : isDigit d = true
            · rw [if_pos hdig2] at h
              exact Option.noConfusion h
            · rw [if_neg hdig2] at h
              simp only [Option.some.injEq, Prod.mk.injEq] at h
              obtain ⟨hds_eq, hcons_eq, hrest_eq⟩ := h
              rw [hr2c] at hcover hsh
              rw [show (List.takeWhile pyIsSpace l
                  ++ (List.takeWhile isDigit (List.dropWhile pyIsSpace l)
                  ++ s :: List.takeWhile pyIsSpace (d :: rr))) = consumed by
                rw [← hcons_eq]; simp [List.append_assoc], hrest_eq] at hcover
              rw [hds_eq] at hsh hdsne hdig
              refine ⟨hcover, ?_, List.takeWhile pyIsSpace l, s, d :: rr,
                hsh, hw1, hdsne, hdig, Or.inr ⟨hs, ?_⟩⟩
              · rw [← hcons_eq]
                simp
              · intro d' rr' hc
                injection hc with h1 _
                rw [← h1]
                simpa using hdig2
        · rw [if_neg hsep2] at h
          exact Option.noConfusion h

theorem drop_pred_append {l : List Char} (h : l ≠ []) (rest : List Char) :
    List.drop (l.length - 1) (l ++ rest) = l.getLast h :: rest := by
  have h2 : l ++ rest = l.dropLast ++ (l.getLast h :: rest) := by
    conv_lhs => rw [← List.dropLast_append_getLast h]
    simp [List.append_assoc]
  rw [h2, show l.length - 1 = l.dropLast.length by rw [List.length_dropLast],
    List.drop_left]

theorem qstartScan_sound : ∀ (fuel : Nat) (t : List Char) (atLS : Bool) (pos : Nat),
    (atLS = true → pos = 0 ∨ (1 ≤ pos ∧ t.drop (pos - 1) = '\n' :: t.drop pos)) →
    ∀ pn ∈ qstartScan fuel atLS pos (t.drop pos),
      (pn.1 = 0 ∨ (1 ≤ pn.1 ∧ t.drop (pn.1 - 1) = '\n' :: t.drop pn.1))
      ∧ ∃ w1 s r2, t.drop pn.1 = w1 ++ pn.2 ++ s :: r2
          ∧ (∀ c ∈ w1, pyIsSpace c = true)
          ∧ pn.2 ≠ [] ∧ (∀ c ∈ pn.2, isDigit c = true)
          ∧ (s = '、' ∨ (s = '.' ∧ ∀ d rr, r2 = d :: rr → isDigit d = false)) := by
  intro fuel
  induction fuel with
  | zero =>
    intro t atLS pos _ pn hpn
    simp [qstartScan] at hpn
  | succ fuel ih =>
    intro t atLS pos hinv pn hpn
    cases hdrop : t.drop pos with
    | nil =>
      rw [hdrop] at hpn
      simp [qstartScan] at hpn
    | cons c r =>
      rw [hdrop] at hpn
      have hr : r = t.drop (pos + 1) := by
        have ht := List.tail_drop t pos
        rw [hdrop] at ht
        simpa using ht
      have hnext : ((c == '\n') = true →
          pos + 1 = 0 ∨ (1 ≤ pos + 1 ∧ t.drop (pos + 1 - 1) = '\n' :: t.drop (pos + 1))) := by
        intro hc
        right
        refine ⟨by omega, ?_⟩
        have hcn : c = '\n' := by simpa using hc
        rw [show pos + 1 - 1 = pos from rfl, hdrop, hcn, hr]
      cases atLS with
      | false =>
        rw [show qstartScan (fuel + 1) false pos (c :: r)
            = qstartScan fuel (c == '\n') (pos + 1) r from rfl, hr] at hpn
        exact ih t (c == '\n') (pos + 1) hnext pn hpn
      | true =>
        cases hm : matchQStart (c :: r) with
        | none =>
          rw [show qstartScan (fuel + 1) true pos (c :: r)
              = qstartScan fuel (c == '\n') (pos + 1) r by
            simp [qstartScan, hm], hr] at hpn
          exact ih t (c == '\n') (pos + 1) hnext pn hpn
        | some m =>
          rcases m with ⟨ds, consumed, rest⟩
          rw [show qstartScan (fuel + 1) true pos (c :: r)
              = (pos, ds) :: qstartScan fuel (consumed.getLast? == some '\n')
                  (pos + consumed.length) rest by simp [qstartScan, hm]] at hpn
          have hsound := matchQStart_sound hm
          have hcl : t.drop pos = consumed ++ rest := by
            rw [hdrop]
            exact hsound.1
          have hrest : rest = t.drop (pos + consumed.length) := by
            rw [← List.drop_drop, hcl, List.drop_left]
          rcases List.mem_cons.1 hpn with hpn1 | hpn1
          · subst hpn1
            refine ⟨hinv rfl, ?_⟩
            rw [hdrop]
            exact hsound.2.2
          · have hcne := hsound.2.1
            have hlenpos : 1 ≤ consumed.length := List.length_pos.2 hcne
            refine ih t (consumed.getLast? == some '\n') (pos + consumed.length)
              ?_ pn (by rw [← hrest]; exact hpn1)
            intro hc
            right
            refine ⟨by omega, ?_⟩
            have hgl : consumed.getLast? = some '\n' := by
              simpa using hc
            have hglv : consumed.getLast hcne = '\n' := by
              have := List.getLast?_eq_getLast consumed hcne
              rw [hgl] at this
              exact (Option.some_inj.1 this).symm
            rw [show pos + consumed.length - 1 = pos + (consumed.length - 1) by omega,
              ← List.drop_drop, hcl, drop_pred_append hcne rest, hglv, ← hrest]

theorem qstartScan_bounds : ∀ (fuel : Nat) (atLS : Bool) (pos : Nat) (l : List Char),
    ∀ pn ∈ qstartScan fuel atLS pos l, pos ≤ pn.1 ∧ pn.1 < pos + l.length := by
  intro fuel
  induction fuel with
  | zero =>
    intro atLS pos l pn hpn
    simp [qstartScan] at hpn
  | succ fuel ih =>
    intro atLS pos l pn hpn
    cases l with
    | nil => simp [qstartScan] at hpn
    | cons c r =>
      have step : ∀ pn ∈ qstartScan fuel (c == '\n') (pos + 1) r,
          pos ≤ pn.1 ∧ pn.1 < pos + (c :: r).length := by
        intro pn hpn
        have := ih (c == '\n') (pos + 1) r pn hpn
        simp only [List.length_cons]
        omega
      cases atLS with
      | false =>
        exact step pn hpn
      | true =>
        cases hm : matchQStart (c :: r) with
        | none =>
          rw [show qstartScan (fuel + 1) true pos (c :: r)
              = qstartScan fuel (c == '\n') (pos + 1) r by
            simp [qstartScan, hm]] at hpn
          exact step pn hpn
        | some m =>
          rcases m with ⟨ds, consumed, rest⟩
          rw [show qstartScan (fuel + 1) true pos (c :: r)
              = (pos, ds) :: qstartScan fuel (consumed.getLast? == some '\n')
                  (pos + consumed.length) rest by simp [qstartScan, hm]] at hpn
          have hsound := matchQStart_sound hm
          have hlen : consumed.length + rest.length = (c :: r).length := by
            rw [hsound.1]
            simp
          rcases List.mem_cons.1 hpn with hpn1 | hpn1
          · subst hpn1
            simp only [List.length_cons]
            omega
          · have := ih _ (pos + consumed.length) rest pn hpn1
            omega

theorem qstartScan_pairwise : ∀ (fuel : Nat) (atLS : Bool) (pos : Nat) (l : List Char),
    List.Pairwise (fun a b => a.1 < b.1) (qstartScan fuel atLS pos l) := by
  intro fuel
  induction fuel with
  | zero =>
    intro atLS pos l
    simp [qstartScan]
  | succ fuel ih =>
    intro atLS pos l
    cases l with
    | nil => simp [qstartScan]
    | cons c r =>
      cases atLS with
      | false => exact ih (c == '\n') (pos + 1) r
      | true =>
        cases hm : matchQStart (c :: r) with
        | none =>
          rw [show qstartScan (fuel + 1) true pos (c :: r)
              = qstartScan fuel (c == '\n') (pos + 1) r by
            simp [qstartScan, hm]]
          exact ih (c == '\n') (pos + 1) r
        | some m =>
          rcases m with ⟨ds, consumed, rest⟩
          rw [show qstartScan (fuel + 1) true pos (c :: r)
              = (pos, ds) :: qstartScan fuel (consumed.getLast? == some '\n')
                  (pos + consumed.length) rest by simp [qstartScan, hm]]
          have hsound := matchQStart_sound hm
          have hlenpos : 1 ≤ consumed.length := List.length_pos.2 hsound.2.1
          refine List.Pairwise.cons ?_ (ih _ _ _)
          intro y hy
          have := qstartScan_bounds fuel _ (pos + consumed.length) rest y hy
          omega

/-- C4: a question start is recognized only at a line start, consisting of
optional whitespace, one or more digits, then either `、` or a literal `.`
not followed by another digit; on the guard text containing the line
`参见 1.2.1 节说明` the only match is the standalone `1、` line at offset 18,
and the single raw block starts there, never at the `1.2.1` token. -/
theorem C4_question_start_guard (t : List Char) (pn : Nat × List Char)
    (h : pn ∈ QSTART_findall t) :
    ((pn.1 = 0 ∨ (1 ≤ pn.1 ∧ t.drop (pn.1 - 1) = '\n' :: t.drop pn.1))
      ∧ ∃ w1 s r2, t.drop pn.1 = w1 ++ pn.2 ++ s :: r2
          ∧ (∀ c ∈ w1, pyIsSpace c = true)
          ∧ pn.2 ≠ [] ∧ (∀ c ∈ pn.2, isDigit c = true)
          ∧ (s = '、' ∨ (s = '.' ∧ ∀ d rr, r2 = d :: rr → isDigit d = false)))
    ∧ QSTART_findall c4Text = [(18, ['1'])]
    ∧ buildBlocks (QSTART_findall c4Text) c4Text.length = [(18, 29, 1)] := by
  refine ⟨?_, by decide, by decide⟩
  have hs := qstartScan_sound (t.length + 1) t true 0 (fun _ => Or.inl rfl) pn
  rw [List.drop_zero] at hs
  exact hs h

/-- Witness for C4: the guard text and its sole match at offset 18. -/
theorem C4_question_start_guard_witness :
    ((18 : Nat), ['1']) ∈ QSTART_findall c4Text
    ∧ (((18 : Nat) = 0 ∨ (1 ≤ 18 ∧ c4Text.drop 17 = '\n' :: c4Text.drop 18))
      ∧ ∃ w1 s r2, c4Text.drop 18 = w1 ++ ['1'] ++ s :: r2
          ∧ (∀ c ∈ w1, pyIsSpace c = true)
          ∧ (['1'] : List Char) ≠ [] ∧ (∀ c ∈ (['1'] : List Char), isDigit c = true)
          ∧ (s = '、' ∨ (s = '.' ∧ ∀ d rr, r2 = d :: rr → isDigit d = false)))
    ∧ QSTART_findall c4Text = [(18, ['1'])]
    ∧ buildBlocks (QSTART_findall c4Text) c4Text.length = [(18, 29, 1)] :=
  ⟨by decide, C4_question_start_guard c4Text (18, ['1']) (by decide)⟩

theorem buildBlocks_cover (len : Nat) : ∀ ms : List (Nat × List Char),
    List.Pairwise (fun a b => a.1 < b.1) ms →
    (∀ m ∈ ms, m.1 < len) →
    ms ≠ [] →
    (buildBlocks ms len).map (fun b => b.1) = ms.map (fun m => m.1)
    ∧ List.Chain' (fun a b => a.2.1 = b.1) (buildBlocks ms len)
    ∧ (buildBlocks ms len).getLast?.map (fun b => b.2.1) = some len
    ∧ ∀ b ∈ buildBlocks ms len, b.1 < b.2.1 := by
  intro ms
  induction ms using listRec2 with
  | h0 =>
    intro _ _ hne
    exact absurd rfl hne
  | h1 sd =>
    intro _ hb _
    refine ⟨by simp [buildBlocks], by simp [buildBlocks], by simp [buildBlocks], ?_⟩
    intro b hbmem
    have hlt := hb sd (by simp)
    simp [buildBlocks] at hbmem
    rw [hbmem]
    exact hlt
  | h2 sd sd2 rest ih ihd =>
    intro hpw hb _
    obtain ⟨hhead, htail⟩ := List.pairwise_cons.1 hpw
    obtain ⟨ihmap, ihchain, ihlast, ihb⟩ := ihd htail
      (fun m hm => hb m (List.mem_cons_of_mem _ hm)) (by simp)
    have hbbne : buildBlocks (sd2 :: rest) len ≠ [] := by
      intro he
      rw [he] at ihmap
      simp at ihmap
    have hbeq : buildBlocks (sd :: sd2 :: rest) len
        = (sd.1, sd2.1, digitsToNat sd.2) :: buildBlocks (sd2 :: rest) len := rfl
    refine ⟨?_, ?_, ?_, ?_⟩
    · rw [hbeq]
      simp [ihmap]
    · rw [hbeq, List.chain'_cons']
      refine ⟨?_, ihchain⟩
      intro b hbh
      cases hcase : buildBlocks (sd2 :: rest) len with
      | nil => exact absurd hcase hbbne
      | cons b0 bl =>
        rw [hcase] at hbh
        simp at hbh
        rw [hcase] at ihmap
        simp at ihmap
        rw [← hbh]
        exact ihmap.1.symm
    · rw [hbeq]
      cases hcase : buildBlocks (sd2 :: rest) len with
      | nil => exact absurd hcase hbbne
      | cons b0 bl =>
        rw [List.getLast?_cons_cons]
        rw [hcase] at ihlast
        exact ihlast
    · intro b hbm
      rw [hbeq] at hbm
      rcases List.mem_cons.1 hbm with h1 | h1
      · rw [h1]
        exact hhead sd2 (by simp)
      · exact ihb b h1

/-- C7: for a text with a non-empty question-start match set, the raw block
spans are contiguous (each block's end is the next block's start, so there is
neither gap nor overlap), ascending and non-degenerate, their starts are
exactly the match starts (so the first block starts at the first match), and
the last block ends at the text length. -/
theorem C7_segmentation_coverage (t : List Char)
    (h : QSTART_findall t ≠ []) :
    (buildBlocks (QSTART_findall t) t.length).map (fun b => b.1)
        = (QSTART_findall t).map (fun m => m.1)
    ∧ List.Chain' (fun a b => a.2.1 = b.1)
        (buildBlocks (QSTART_findall t) t.length)
    ∧ (buildBlocks (QSTART_findall t) t.length).getLast?.map (fun b => b.2.1)
        = some t.length
    ∧ (∀ b ∈ buildBlocks (QSTART_findall t) t.length, b.1 < b.2.1)
    ∧ List.Pairwise (fun a b => a.1 < b.1)
        (buildBlocks (QSTART_findall t) t.length) := by
  have hpw : List.Pairwise (fun a b => a.1 < b.1) (QSTART_findall t) :=
    qstartScan_pairwise (t.length + 1) true 0 t
  have hbnd : ∀ m ∈ QSTART_findall t, m.1 < t.length := by
    intro m hm
    have := qstartScan_bounds (t.length + 1) true 0 t m hm
    omega
  obtain ⟨hmap, hchain, hlast, hb⟩ :=
    buildBlocks_cover t.length (QSTART_findall t) hpw hbnd h
  refine ⟨hmap, hchain, hlast, hb, ?_⟩
  have h1 : ((buildBlocks (QSTART_findall t) t.length).map
      (fun b => b.1)).Pairwise (· < ·) := by
    rw [hmap]
    exact List.pairwise_map.2 hpw
  exact List.pairwise_map.1 h1

/-- Witness for C7 at the concrete guard text. -/
theorem C7_segmentation_coverage_witness :
    QSTART_findall c4Text ≠ []
    ∧ ((buildBlocks (QSTART_findall c4Text) c4Text.length).map (fun b => b.1)
        = (QSTART_findall c4Text).map (fun m => m.1)
      ∧ List.Chain' (fun a b => a.2.1 = b.1)
          (buildBlocks (QSTART_findall c4Text) c4Text.length)
      ∧ (buildBlocks (QSTART_findall c4Text) c4Text.length).getLast?.map
          (fun b => b.2.1) = some c4Text.length
      ∧ (∀ b ∈ buildBlocks (QSTART_findall c4Text) c4Text.length, b.1 < b.2.1)
      ∧ List.Pairwise (fun a b => a.1 < b.1)
          (buildBlocks (QSTART_findall c4Text) c4Text.length)) :=
  ⟨by decide, C7_segmentation_coverage c4Text (by decide)⟩

theorem findIdx?_some_aux (p : Char → Bool) : ∀ (l : List Char) (i j : Nat),
    List.findIdx? p l i = some j →
    i ≤ j ∧ j - i < l.length ∧ p (l.getD (j - i) ' ') = true := by
  intro l
  induction l with
  | nil =>
    intro i j h
    rw [List.findIdx?_nil] at h
    exact Option.noConfusion h
  | cons x xs ih =>
    intro i j h
    rw [List.findIdx?_cons] at h
    by_cases hp : p x = true
    · rw [if_pos hp] at h
      have hij := Option.some_inj.1 h
      subst hij
      refine ⟨Nat.le_refl _, by simp, ?_⟩
      rw [Nat.sub_self, List.getD_cons_zero]
      exact hp
    · rw [if_neg hp] at h
      obtain ⟨h1, h2, h3⟩ := ih (i + 1) j h
      refine ⟨by omega, by simp only [List.length_cons]; omega, ?_⟩
      rw [show j - i = (j - (i + 1)) + 1 by omega, List.getD_cons_succ]
      exact h3

theorem lastNlIdx_sound {w : List Char} {i : Nat} (h : lastNlIdx w = some i) :
    i < w.length ∧ w.getD i ' ' = '\n' := by
  simp only [lastNlIdx] at h
  cases hf : w.reverse.findIdx? (fun c => c == '\n') with
  | none =>
    rw [hf] at h
    exact Option.noConfusion h
  | some j =>
    rw [hf] at h
    have hi := Option.some_inj.1 h
    obtain ⟨-, h2, h3⟩ := findIdx?_some_aux (fun c => c == '\n') w.reverse 0 j hf
    rw [Nat.sub_zero] at h2 h3
    rw [List.length_reverse] at h2
    have hget := List.getD_eq_getElem w.reverse ' '
      (show j < w.reverse.length by rw [List.length_reverse]; exact h2)
    rw [hget, List.getElem_reverse] at h3
    refine ⟨by omega, ?_⟩
    rw [← hi]
    have hlt : w.length - 1 - j < w.length := by omega
    rw [List.getD_eq_getElem w ' ' hlt]
    simpa using h3

theorem matchSectionName_sound : ∀ (names : List (List Char)) (l : List Char)
    (nl : Nat), matchSectionName names l = some nl →
    ∃ nm, nm ∈ names ∧ nm.length = nl ∧ ∃ r, l = nm ++ r := by
  intro names
  induction names with
  | nil =>
    intro l nl h
    exact Option.noConfusion h
  | cons n ns ih =>
    intro l nl h
    simp only [matchSectionName] at h
    by_cases hs : startsWith n l = true
    · rw [if_pos hs] at h
      obtain ⟨r, hr⟩ := (startsWith_iff n l).1 hs
      exact ⟨n, by simp, Option.some_inj.1 h, r, hr⟩
    · rw [if_neg hs] at h
      obtain ⟨nm, h1, h2, h3⟩ := ih l nl h
      exact ⟨nm, List.mem_cons_of_mem _ h1, h2, h3⟩

theorem sectionTail_sound {r : List Char} {tb : Nat × Bool}
    (h : sectionTail r = some tb) :
    ∃ w3 rest, r = w3 ++ rest ∧ w3.length = tb.1
      ∧ (∀ c ∈ w3, pyIsSpace c = true)
      ∧ (rest = [] ∨ ∃ r2, rest = '\n' :: r2)
      ∧ (tb.2 = true → w3 ≠ [] ∧ w3.getLast? = some '\n') := by
  have hsplit := takeWhile_drop_eq pyIsSpace r
  simp only [sectionTail] at h
  by_cases he : (r.drop (r.takeWhile pyIsSpace).length).isEmpty = true
  · rw [if_pos he] at h
    have htb := Option.some_inj.1 h
    have hre : r.drop (r.takeWhile pyIsSpace).length = [] := List.isEmpty_iff.1 he
    refine ⟨r.takeWhile pyIsSpace, [], ?_, ?_, ?_, Or.inl rfl, ?_⟩
    · rw [List.append_nil]
      conv_lhs => rw [hsplit]
      rw [hre, List.append_nil]
    · rw [← htb]
    · intro c hc
      exact List.mem_takeWhile_imp hc
    · rw [← htb]
      intro hflag
      cases hgl : (r.takeWhile pyIsSpace).getLast? with
      | none =>
        rw [hgl] at hflag
        exact Bool.noConfusion hflag
      | some c =>
        rw [hgl] at hflag
        have hcn : c = '\n' := by simpa using hflag
        refine ⟨?_, by rw [hcn]⟩
        intro hwnil
        rw [hwnil] at hgl
        exact Option.noConfusion hgl
  · rw [if_neg he] at h
    cases hln : lastNlIdx (r.takeWhile pyIsSpace) with
    | none =>
      rw [hln] at h
      exact Option.noConfusion h
    | some i =>
      rw [hln] at h
      have htb := Option.some_inj.1 h
      obtain ⟨hilt, hinl⟩ := lastNlIdx_sound hln
      refine ⟨(r.takeWhile pyIsSpace).take i,
        (r.takeWhile pyIsSpace).drop i ++ r.drop (r.takeWhile pyIsSpace).length,
        ?_, ?_, ?_, ?_, ?_⟩
      · conv_lhs => rw [hsplit]
        rw [← List.append_assoc, List.take_append_drop]
      · rw [← htb]
        simp only [List.length_take]
        omega
      · intro c hc
        exact List.mem_takeWhile_imp (List.take_subset _ _ hc)
      · right
        refine ⟨(r.takeWhile pyIsSpace).drop (i + 1)
          ++ r.drop (r.takeWhile pyIsSpace).length, ?_⟩
        rw [List.drop_eq_getElem_cons hilt, List.cons_append]
        congr 1
        have hg := List.getD_eq_getElem (r.takeWhile pyIsSpace) ' ' hilt
        rw [hinl] at hg
        exact hg.symm
      · rw [← htb]
        intro hflag
        cases hgl : ((r.takeWhile pyIsSpace).take i).getLast? with
        | none =>
          rw [hgl] at hflag
          exact Bool.noConfusion hflag
        | some c =>
          rw [hgl] at hflag
          have hcn : c = '\n' := by simpa using hflag
          refine ⟨?_, by rw [hcn]⟩
          intro hwnil
          rw [hwnil] at hgl
          exact Option.noConfusion hgl

theorem nameTail_decomp {names : List (List Char)} {r3 : List Char} {nl : Nat}
    {tb : Nat × Bool}
    (hmn : matchSectionName names r3 = some nl)
    (hst : sectionTail (r3.drop nl) = some tb) :
    ∃ nm w3 rest, r3 = (nm ++ w3) ++ rest ∧ nm ∈ names
      ∧ nm.length = nl ∧ w3.length = tb.1
      ∧ (∀ c ∈ w3, pyIsSpace c = true)
      ∧ (rest = [] ∨ ∃ r2, rest = '\n' :: r2)
      ∧ (tb.2 = true → w3 ≠ [] ∧ w3.getLast? = some '\n') := by
  obtain ⟨nm, hnm, hnl, rr, hr3⟩ := matchSectionName_sound names r3 nl hmn
  have hdrop : r3.drop nl = rr := by
    rw [hr3, ← hnl, List.drop_left]
  rw [hdrop] at hst
  obtain ⟨w3, rest, hrr, hw3l, hw3s, hrest, hflag⟩ := sectionTail_sound hst
  refine ⟨nm, w3, rest, ?_, hnm, hnl, hw3l, hw3s, hrest, hflag⟩
  rw [hr3, hrr, List.append_assoc]

theorem matchSectionNO_sound {names : List (List Char)} {l : List Char}
    {lb : Nat × Bool}
    (h : (match matchSectionName names (l.dropWhile pyIsSpace) with
      | some nl =>
        match sectionTail ((l.dropWhile pyIsSpace).drop nl) with
        | some tb => some ((l.takeWhile pyIsSpace).length + nl + tb.1,
            if tb.1 = 0 then false else tb.2)
        | none => none
      | none => none) = some lb) :
    ∃ consumed rest, l = consumed ++ rest ∧ consumed.length = lb.1
      ∧ lineIsSection names consumed
      ∧ (rest = [] ∨ ∃ r2, rest = '\n' :: r2)
      ∧ (lb.2 = true → consumed ≠ [] ∧ consumed.getLast? = some '\n') := by
  cases hmn : matchSectionName names (l.dropWhile pyIsSpace) with
  | none =>
    rw [hmn] at h
    exact Option.noConfusion h
  | some nl =>
    rw [hmn] at h
    dsimp only at h
    cases hst : sectionTail ((l.dropWhile pyIsSpace).drop nl) with
    | none =>
      rw [hst] at h
      exact Option.noConfusion h
    | some tb =>
      rw [hst] at h
      dsimp only at h
      have hv := Option.some_inj.1 h
      obtain ⟨nm, w3, rest, hr1, hnm, hnl, hw3l, hw3s, hrest, hflag⟩ :=
        nameTail_decomp hmn hst
      refine ⟨l.takeWhile pyIsSpace ++ nm ++ w3, rest, ?_, ?_, ?_, hrest, ?_⟩
      · conv_lhs => rw [← List.takeWhile_append_dropWhile pyIsSpace l]
        conv_lhs => rw [hr1]
        simp only [List.append_assoc]
      · rw [← hv]
        dsimp only
        simp only [List.length_append]
        omega
      · refine ⟨l.takeWhile pyIsSpace, [], nm, w3, by simp, ?_, hw3s, hnm,
          Or.inl rfl⟩
        intro c hc
        exact List.mem_takeWhile_imp hc
      · intro hb
        rw [← hv] at hb
        dsimp only at hb
        by_cases h0 : tb.1 = 0
        · rw [if_pos h0] at hb
          exact Bool.noConfusion hb
        · rw [if_neg h0] at hb
          obtain ⟨hw3ne, hgl⟩ := hflag hb
          have hre : l.takeWhile pyIsSpace ++ nm ++ w3
              = (l.takeWhile pyIsSpace ++ nm) ++ w3 := by
            simp [List.append_assoc]
          refine ⟨?_, ?_⟩
          · rw [hre]
            intro hc
            rcases List.append_eq_nil.1 hc with ⟨-, h2⟩
            exact hw3ne h2
          · rw [hre, List.getLast?_append_of_ne_nil _ hw3ne]
            exact hgl

theorem matchSection_sound {names : List (List Char)} {l : List Char}
    {lb : Nat × Bool} (h : matchSection names l = some lb) :
    ∃ consumed rest, l = consumed ++ rest ∧ consumed.length = lb.1
      ∧ lineIsSection names consumed
      ∧ (rest = [] ∨ ∃ r2, rest = '\n' :: r2)
      ∧ (lb.2 = true → consumed ≠ [] ∧ consumed.getLast? = some '\n') := by
  simp only [matchSection] at h
  by_cases hie : ((l.dropWhile pyIsSpace).takeWhile cnOrd).isEmpty = true
  · rw [if_pos hie] at h
    dsimp only at h
    exact matchSectionNO_sound h
  · rw [if_neg hie] at h
    cases hdr : (l.dropWhile pyIsSpace).drop
        ((l.dropWhile pyIsSpace).takeWhile cnOrd).length with
    | nil =>
      rw [hdr] at h
      dsimp only at h
      exact matchSectionNO_sound h
    | cons s r2 =>
      rw [hdr] at h
      dsimp only at h
      by_cases hsep : (s == '、' || s == '.') = true
      · rw [if_pos hsep] at h
        cases hmn : matchSectionName names (r2.dropWhile pyIsSpace) with
        | none =>
          rw [hmn] at h
          dsimp only at h
          exact matchSectionNO_sound h
        | some nl =>
          rw [hmn] at h
          dsimp only at h
          cases hst : sectionTail ((r2.dropWhile pyIsSpace).drop nl) with
          | none =>
            rw [hst] at h
            dsimp only at h
            exact matchSectionNO_sound h
          | some tb =>
            rw [hst] at h
            dsimp only at h
            have hv := Option.some_inj.1 h
            obtain ⟨nm, w3, rest, hr3, hnm, hnl, hw3l, hw3s, hrest, hflag⟩ :=
              nameTail_decomp hmn hst
            have henn : (l.dropWhile pyIsSpace).takeWhile cnOrd ≠ [] := by
              intro hc
              apply hie
              rw [hc]
              rfl
            have hsep2 : s = '、' ∨ s = '.' := by simpa using hsep
            have hr1 : l.dropWhile pyIsSpace
                = (l.dropWhile pyIsSpace).takeWhile cnOrd ++ (s :: r2) := by
              conv_lhs => rw [takeWhile_drop_eq cnOrd (l.dropWhile pyIsSpace)]
              rw [hdr]
            have hr2 : r2 = r2.takeWhile pyIsSpace ++ r2.dropWhile pyIsSpace :=
              (List.takeWhile_append_dropWhile pyIsSpace r2).symm
            refine ⟨l.takeWhile pyIsSpace
              ++ ((l.dropWhile pyIsSpace).takeWhile cnOrd
                ++ s :: r2.takeWhile pyIsSpace) ++ nm ++ w3, rest,
              ?_, ?_, ?_, hrest, ?_⟩
            · conv_lhs => rw [← List.takeWhile_append_dropWhile pyIsSpace l]
              conv_lhs => rw [hr1]
              conv_lhs => rw [hr2]
              conv_lhs => rw [hr3]
              simp only [List.append_assoc, List.cons_append]
            · rw [← hv]
              dsimp only
              simp only [List.length_append, List.length_cons]
              omega
            · refine ⟨l.takeWhile pyIsSpace,
                (l.dropWhile pyIsSpace).takeWhile cnOrd
                  ++ s :: r2.takeWhile pyIsSpace, nm, w3, rfl, ?_, hw3s, hnm,
                Or.inr ⟨(l.dropWhile pyIsSpace).takeWhile cnOrd, s,
                  r2.takeWhile pyIsSpace, rfl, henn, ?_, hsep2, ?_⟩⟩
              · intro c hc
                exact List.mem_takeWhile_imp hc
              · intro c hc
                exact List.mem_takeWhile_imp hc
              · intro c hc
                exact List.mem_takeWhile_imp hc
            · intro hb
              rw [← hv] at hb
              dsimp only at hb
              by_cases h0 : tb.1 = 0
              · rw [if_pos h0] at hb
                exact Bool.noConfusion hb
              · rw [if_neg h0] at hb
                obtain ⟨hw3ne, hgl⟩ := hflag hb
                have hre : l.takeWhile pyIsSpace
                    ++ ((l.dropWhile pyIsSpace).takeWhile cnOrd
                      ++ s :: r2.takeWhile pyIsSpace) ++ nm ++ w3
                    = (l.takeWhile pyIsSpace
                      ++ ((l.dropWhile pyIsSpace).takeWhile cnOrd
                        ++ s :: r2.takeWhile pyIsSpace) ++ nm) ++ w3 := by
                  simp [List.append_assoc]
                refine ⟨?_, ?_⟩
                · rw [hre]
                  intro hc
                  rcases List.append_eq_nil.1 hc with ⟨-, h2⟩
                  exact hw3ne h2
                · rw [hre, List.getLast?_append_of_ne_nil _ hw3ne]
                  exact hgl
      · rw [if_neg hsep] at h
        dsimp only at h
        exact matchSectionNO_sound h

theorem sectionScan_sound (names : List (List Char)) :
    ∀ (fuel : Nat) (t : List Char) (atLS : Bool) (pos : Nat),
    (atLS = true → pos = 0 ∨ (1 ≤ pos ∧ t.drop (pos - 1) = '\n' :: t.drop pos)) →
    ∀ p ∈ sectionScan names fuel atLS pos (t.drop pos),
      (p = 0 ∨ (1 ≤ p ∧ t.drop (p - 1) = '\n' :: t.drop p))
      ∧ ∃ lb, matchSection names (t.drop p) = some lb := by
  intro fuel
  induction fuel with
  | zero =>
    intro t atLS pos _ p hp
    rw [show sectionScan names 0 atLS pos (t.drop pos) = [] from rfl] at hp
    exact absurd hp (List.not_mem_nil p)
  | succ fuel ih =>
    intro t atLS pos hinv p hp
    cases hdrop : t.drop pos with
    | nil =>
      rw [hdrop,
        show sectionScan names (fuel + 1) atLS pos [] = [] from rfl] at hp
      exact absurd hp (List.not_mem_nil p)
    | cons c r =>
      rw [hdrop] at hp
      have hr : r = t.drop (pos + 1) := by
        have ht := List.tail_drop t pos
        rw [hdrop] at ht
        simpa using ht
      have hnext : ((c == '\n') = true →
          pos + 1 = 0 ∨ (1 ≤ pos + 1
            ∧ t.drop (pos + 1 - 1) = '\n' :: t.drop (pos + 1))) := by
        intro hc
        right
        refine ⟨by omega, ?_⟩
        have hcn : c = '\n' := by simpa using hc
        rw [show pos + 1 - 1 = pos from rfl, hdrop, hcn, hr]
      cases atLS with
      | false =>
        rw [show sectionScan names (fuel + 1) false pos (c :: r)
            = sectionScan names fuel (c == '\n') (pos + 1) r from rfl, hr] at hp
        exact ih t (c == '\n') (pos + 1) hnext p hp
      | true =>
        have hstep : sectionScan names (fuel + 1) true pos (c :: r)
            = match matchSection names (c :: r) with
              | some lb => pos :: sectionScan names fuel lb.2 (pos + lb.1)
                  ((c :: r).drop lb.1)
              | none => sectionScan names fuel (c == '\n') (pos + 1) r := rfl
        cases hm : matchSection names (c :: r) with
        | none =>
          rw [hstep, hm] at hp
          dsimp only at hp
          rw [hr] at hp
          exact ih t (c == '\n') (pos + 1) hnext p hp
        | some lb =>
          rw [hstep, hm] at hp
          dsimp only at hp
          obtain ⟨consumed, rest, hcr, hclen, -, -, hflag⟩ :=
            matchSection_sound hm
          have hcl : t.drop pos = consumed ++ rest := by
            rw [hdrop]
            exact hcr
          have hdl : (c :: r).drop lb.1 = t.drop (pos + lb.1) := by
            rw [← hdrop, List.drop_drop]
          rcases List.mem_cons.1 hp with hp1 | hp1
          · subst hp1
            refine ⟨hinv rfl, lb, ?_⟩
            rw [hdrop]
            exact hm
          · rw [hdl] at hp1
            refine ih t lb.2 (pos + lb.1) ?_ p hp1
            intro hb
            obtain ⟨hcne, hgl⟩ := hflag hb
            right
            have hlenpos : 1 ≤ lb.1 := by
              rw [← hclen]
              exact List.length_pos.2 hcne
            refine ⟨by omega, ?_⟩
            have hglv : consumed.getLast hcne = '\n' := by
              have h2 := List.getLast?_eq_getLast consumed hcne
              rw [hgl] at h2
              exact (Option.some_inj.1 h2).symm
            have hrest : t.drop (pos + consumed.length) = rest := by
              rw [← List.drop_drop, hcl, List.drop_left]
            rw [show pos + lb.1 - 1 = pos + (lb.1 - 1) by omega,
              ← List.drop_drop, hcl, ← hclen, drop_pred_append hcne rest,
              hglv, hrest]

theorem build_section_markers_sound {t : List Char} {p : Nat}
    {label : List Char} (h : (p, label) ∈ build_section_markers t) :
    ∃ names, (names, label) ∈ SECTION_PATTERNS
      ∧ (p = 0 ∨ (1 ≤ p ∧ t.drop (p - 1) = '\n' :: t.drop p))
      ∧ ∃ lb, matchSection names (t.drop p) = some lb := by
  simp only [build_section_markers] at h
  rw [List.mem_mergeSort] at h
  obtain ⟨lmem, hlm, hpl⟩ := List.mem_flatten.1 h
  obtain ⟨pn, hpn, hmap⟩ := List.mem_map.1 hlm
  rw [← hmap] at hpl
  obtain ⟨q, hq, hqe⟩ := List.mem_map.1 hpl
  injection hqe with hq1 hq2
  subst hq1
  have hs := sectionScan_sound pn.1 (t.length + 1) t true 0
    (fun _ => Or.inl rfl) q (by rw [List.drop_zero]; exact hq)
  refine ⟨pn.1, ?_, hs.1, hs.2⟩
  rw [← hq2]
  exact hpn

theorem bleTrans : ∀ a b c : Nat × List Char, Nat.ble a.1 b.1 = true →
    Nat.ble b.1 c.1 = true → Nat.ble a.1 c.1 = true := by
  intro a b c hab hbc
  rw [Nat.ble_eq] at *
  omega

theorem bleTotal : ∀ a b : Nat × List Char,
    (Nat.ble a.1 b.1 || Nat.ble b.1 a.1) = true := by
  intro a b
  rw [Bool.or_eq_true, Nat.ble_eq, Nat.ble_eq]
  omega

theorem build_section_markers_sorted (t : List Char) :
    List.Pairwise (fun a b => a.1 ≤ b.1) (build_section_markers t) := by
  simp only [build_section_markers]
  exact (List.sorted_mergeSort bleTrans bleTotal _).imp
    (fun hab => Nat.le_of_ble_eq_true hab)

theorem sectionAtGo_spec (pos : Nat) : ∀ (ms : List (Nat × List Char))
    (cur : List Char), List.Pairwise (fun a b => a.1 ≤ b.1) ms →
    sectionAtGo cur ms pos =
      (((ms.filter fun m => m.1 ≤ pos).getLast?).map (fun m => m.2)).getD cur := by
  intro ms
  induction ms with
  | nil =>
    intro cur _
    simp [sectionAtGo]
  | cons m rest ih =>
    intro cur hpw
    obtain ⟨hhead, htail⟩ := List.pairwise_cons.1 hpw
    by_cases hle : m.1 ≤ pos
    · rw [show sectionAtGo cur (m :: rest) pos = sectionAtGo m.2 rest pos by
        simp [sectionAtGo, hle]]
      rw [ih m.2 htail]
      have hf : (m :: rest).filter (fun m => m.1 ≤ pos)
          = m :: rest.filter (fun m => m.1 ≤ pos) := by
        simp [List.filter_cons, hle]
      rw [hf]
      cases hrf : rest.filter (fun m => m.1 ≤ pos) with
      | nil => simp
      | cons x xs =>
        rw [List.getLast?_cons_cons]
        cases hgl : (x :: xs).getLast? with
        | none => exact absurd hgl (by simp)
        | some v => simp
    · rw [show sectionAtGo cur (m :: rest) pos = cur by
        simp [sectionAtGo, hle]]
      have hf : (m :: rest).filter (fun m => m.1 ≤ pos) = [] := by
        rw [List.filter_eq_nil_iff]
        intro a ha
        rcases List.mem_cons.1 ha with ha1 | ha1
        · rw [ha1]
          simpa using hle
        · have := hhead a ha1
          simp only [decide_eq_true_eq]
          omega
      rw [hf]
      simp

theorem markers_tag_eq : build_section_markers c5TagText = [] := by
  have hfl : (List.map (fun pn =>
      (sectionScan pn.1 (c5TagText.length + 1) true 0 c5TagText).map
        fun p => (p, pn.2)) SECTION_PATTERNS).flatten
      = ([] : List (Nat × List Char)) := by decide
  simp only [build_section_markers]
  rw [hfl]
  exact List.mergeSort_nil

theorem markers_head_eq :
    build_section_markers c5HeadText = [(0, "判断题".data)] := by
  have hfl : (List.map (fun pn =>
      (sectionScan pn.1 (c5HeadText.length + 1) true 0 c5HeadText).map
        fun p => (p, pn.2)) SECTION_PATTERNS).flatten
      = [((0 : Nat), "判断题".data)] := by decide
  simp only [build_section_markers]
  rw [hfl]
  exact List.mergeSort_singleton _

/-- C5: every recorded section marker arises from a heading pattern whose
match at the marker position starts at a line start and decomposes, after
optional whitespace and an optional ordinal enumerator, into exactly one of
the fixed section names followed only by whitespace up to a line end or the
end of text; `section_at` on a sorted marker list returns the label of the
last marker at or before the position, or `未知` when none precedes it;
hence the in-stem tag line of `c5TagText` yields no marker while the
ordinal-prefixed heading of `c5HeadText` yields exactly one, and
`section_at` resolves both accordingly. -/
theorem C5_section_marker_guard (t : List Char) (p : Nat) (label : List Char)
    (h : (p, label) ∈ build_section_markers t) :
    (∃ names, (names, label) ∈ SECTION_PATTERNS
      ∧ (p = 0 ∨ (1 ≤ p ∧ t.drop (p - 1) = '\n' :: t.drop p))
      ∧ ∃ consumed rest, t.drop p = consumed ++ rest
          ∧ lineIsSection names consumed
          ∧ (rest = [] ∨ ∃ r2, rest = '\n' :: r2))
    ∧ (∀ ms : List (Nat × List Char), ∀ q : Nat,
        List.Pairwise (fun a b => a.1 ≤ b.1) ms →
        section_at ms q
          = (((ms.filter fun m => m.1 ≤ q).getLast?).map (fun m => m.2)).getD
              "未知".data)
    ∧ List.Pairwise (fun a b => a.1 ≤ b.1) (build_section_markers t)
    ∧ build_section_markers c5TagText = []
    ∧ section_at (build_section_markers c5TagText) 5 = "未知".data
    ∧ build_section_markers c5HeadText = [(0, "判断题".data)]
    ∧ section_at (build_section_markers c5HeadText) 6 = "判断题".data := by
  refine ⟨?_, ?_, build_section_markers_sorted t, markers_tag_eq, ?_,
    markers_head_eq, ?_⟩
  · obtain ⟨names, hmem, hls, lb, hm⟩ := build_section_markers_sound h
    obtain ⟨consumed, rest, hcr, -, hline, hrest, -⟩ := matchSection_sound hm
    exact ⟨names, hmem, hls, consumed, rest, hcr, hline, hrest⟩
  · intro ms q hpw
    exact sectionAtGo_spec q ms "未知".data hpw
  · rw [markers_tag_eq]
    rfl
  · rw [markers_head_eq]
    rfl

/-- Witness for C5 at the heading text and its sole marker. -/
theorem C5_section_marker_guard_witness :
    ((0 : Nat), "判断题".data) ∈ build_section_markers c5HeadText
    ∧ ((∃ names, (names, "判断题".data) ∈ SECTION_PATTERNS
      ∧ ((0 : Nat) = 0 ∨ (1 ≤ (0 : Nat)
          ∧ c5HeadText.drop (0 - 1) = '\n' :: c5HeadText.drop 0))
      ∧ ∃ consumed rest, c5HeadText.drop 0 = consumed ++ rest
          ∧ lineIsSection names consumed
          ∧ (rest = [] ∨ ∃ r2, rest = '\n' :: r2))
    ∧ (∀ ms : List (Nat × List Char), ∀ q : Nat,
        List.Pairwise (fun a b => a.1 ≤ b.1) ms →
        section_at ms q
          = (((ms.filter fun m => m.1 ≤ q).getLast?).map (fun m => m.2)).getD
              "未知".data)
    ∧ List.Pairwise (fun a b => a.1 ≤ b.1) (build_section_markers c5HeadText)
    ∧ build_section_markers c5TagText = []
    ∧ section_at (build_section_markers c5TagText) 5 = "未知".data
    ∧ build_section_markers c5HeadText = [(0, "判断题".data)]
    ∧ section_at (build_section_markers c5HeadText) 6 = "判断题".data) :=
  ⟨by simp [markers_head_eq],
    C5_section_marker_guard c5HeadText 0 "判断题".data
      (by simp [markers_head_eq])⟩
